import Mathlib

/-!
# Verification of the qr-steganography core

Shallow embedding of the steganographic QR codec from
`src/lib/qr-stego` (prime-step distribution, CRC-16 framing, structural
analyzer, encoder and matrix-mode decoder), together with proofs of the
spec's testable properties.

Modelling conventions:
* JavaScript numbers used as integers are modelled as `ℕ` (all the
  bit-twiddling code stays far below 2^31, so JS 32-bit bitwise
  semantics agree with plain `ℕ` arithmetic, and `Math.sqrt` on the
  small inputs that occur here is the exact integer square root).
* JS `for` loops over a finite index range are modelled as folds/maps
  over the corresponding `List.range'` of indices, with `List.all` /
  `List.find?`-style early exit where the loop returns early.
* The `safetyMargin` option and the two empirical constants `0.07` and
  `0.42` are IEEE doubles in the source; they are modelled as `ℚ`.
  For every constant used in this development the double and rational
  computations agree (the products/quotients are never within double
  rounding error of an integer boundary).
* Secondary messages are modelled as their UTF-8 byte sequences
  (`List ℕ`, each element < 256): the platform `TextEncoder` /
  `TextDecoder` pair sits outside the repository.
* A function that `throw`s is modelled with `Except StegoError`.
* The external QR engine (`nayuki-qr-code-generator`) is out of scope
  per the spec; its output for a given primary string is modelled as an
  abstract, deterministic `EngineQR` value (the same value is fed to
  the encoder and to the decoder's reference regeneration, since both
  call `QrCode.encodeText` with the same arguments).
-/

set_option maxRecDepth 40000

namespace QRStego

/-- Error taxonomy of the codec (spec §7); each constructor corresponds
to one `throw new Error(...)` site in the source. -/
inductive StegoError where
  | matrixTooSmall
  | insufficientCapacity
  | payloadTooLarge
  | capacityExceeded
  | shortFrame
  | badLength
  | checksumMismatch
  | sizeMismatch
  deriving DecidableEq, Repr

/-! ## prime-utils.ts -/

/-- `isPrime` from prime-utils.ts.  The JS loop
`for (let i = 3; i <= Math.sqrt(n); i += 2) if (n % i === 0) return false`
runs over the odd candidates `3, 5, …` while `i² ≤ n`.  It is totalized
here by ranging over all odd candidates below `n` and guarding the body
with the loop condition `i² ≤ n` (iterations beyond `√n` are no-ops). -/
def isPrime (n : ℕ) : Bool :=
  if n < 2 then false
  else if n = 2 then true
  else if n % 2 = 0 then false
  else (List.range' 3 ((n - 1) / 2) 2).all
    (fun i => if i * i ≤ n then n % i != 0 else true)

/-- The candidate scan of `findLargePrime`: return the first entry that
passes `isPrime`, falling back to 2. -/
def flpScan : List ℕ → ℕ
  | [] => 2
  | c :: rest => if isPrime c then c else flpScan rest

/-- `findLargePrime` from prime-utils.ts: the JS loop scans candidates
`max-1, max-2, …, 3` and returns the first prime, else 2. -/
def findLargePrime (max : ℕ) : ℕ :=
  flpScan (List.range' 3 (max - 3)).reverse

/-- The index-emitting loop of `generateDistributionPattern`:
`indices.push(current % totalModules); current = (current + step) % totalModules`. -/
def distLoop (total step : ℕ) : ℕ → ℕ → List ℕ
  | _, 0 => []
  | current, k + 1 =>
      (current % total) :: distLoop total step ((current + step) % total) k

/-- `generateDistributionPattern` from prime-utils.ts. -/
def generateDistributionPattern (bitsNeeded totalModules : ℕ) :
    Except StegoError (List ℕ) :=
  if bitsNeeded > totalModules then
    .error .capacityExceeded
  else
    .ok (distLoop totalModules (findLargePrime totalModules) 0 bitsNeeded)

/-- `validateDistribution` from prime-utils.ts: a JS `Set` of the
entries has the same size as the array iff the entries are distinct. -/
def validateDistribution (pattern : List ℕ) : Bool :=
  pattern.dedup.length = pattern.length

/-! ### Correctness of `isPrime` -/

theorem isPrime_iff (n : ℕ) : isPrime n = true ↔ Nat.Prime n := by
  unfold isPrime
  by_cases h2 : n < 2
  · simp only [h2, if_true]
    constructor
    · intro h; cases h
    · intro h; exact absurd h2 (by have := h.two_le; omega)
  · simp only [h2, if_false]
    by_cases heq : n = 2
    · subst heq; simp [Nat.prime_two]
    · simp only [heq, if_false]
      by_cases heven : n % 2 = 0
      · simp only [heven, if_true]
        constructor
        · intro h; cases h
        · intro h
          exfalso
          have : (2 : ℕ) ∣ n := Nat.dvd_of_mod_eq_zero heven
          have := (Nat.Prime.eq_one_or_self_of_dvd h 2 this)
          omega
      · simp only [heven, if_false]
        rw [List.all_eq_true]
        have hcond : ∀ i : ℕ, i ∈ List.range' 3 ((n - 1) / 2) 2 ↔
            ∃ t, t < (n - 1) / 2 ∧ i = 3 + 2 * t := by
          intro i
          rw [List.mem_range']
        constructor
        · intro h
          by_contra hnp
          have hpos : 0 < n := by omega
          have hsq := Nat.minFac_sq_le_self hpos hnp
          have hdvd := Nat.minFac_dvd n
          have hprime := Nat.minFac_prime (show n ≠ 1 by omega)
          set m := Nat.minFac n with hm
          have hm2 : 2 ≤ m := hprime.two_le
          have hmodd : m % 2 = 1 := by
            rcases Nat.mod_two_eq_zero_or_one m with h0 | h1
            · exfalso
              have h2m : (2 : ℕ) ∣ m := Nat.dvd_of_mod_eq_zero h0
              have : (2 : ℕ) ∣ n := h2m.trans hdvd
              have := Nat.mod_eq_zero_of_dvd this
              omega
            · exact h1
          have hm3 : 3 ≤ m := by omega
          have hmm : m * m ≤ n := by
            have : m ^ 2 = m * m := sq m
            omega
          have h3m : 3 * m ≤ n := le_trans (Nat.mul_le_mul_right m hm3) hmm
          have hmem : m ∈ List.range' 3 ((n - 1) / 2) 2 := by
            rw [hcond]
            exact ⟨(m - 3) / 2, by omega, by omega⟩
          have hres := h m hmem
          rw [if_pos hmm] at hres
          simp only [bne_iff_ne, ne_eq] at hres
          exact hres (Nat.mod_eq_zero_of_dvd hdvd)
        · intro hp i hi
          rw [hcond] at hi
          obtain ⟨t, ht, rfl⟩ := hi
          by_cases hin : (3 + 2 * t) * (3 + 2 * t) ≤ n
          · rw [if_pos hin]
            simp only [bne_iff_ne, ne_eq]
            intro hmod
            have hdvd : (3 + 2 * t) ∣ n := Nat.dvd_of_mod_eq_zero hmod
            rcases (Nat.Prime.eq_one_or_self_of_dvd hp (3 + 2 * t) hdvd) with h1 | hn
            · omega
            · nlinarith
          · rw [if_neg hin]

/-! ### Correctness of `findLargePrime` -/

theorem flpScan_prime (l : List ℕ) : Nat.Prime (flpScan l) := by
  induction l with
  | nil => exact Nat.prime_two
  | cons c rest ih =>
    rw [flpScan]
    by_cases hp : isPrime c
    · rw [if_pos hp]; exact (isPrime_iff c).mp hp
    · rw [if_neg hp]; exact ih

theorem flpScan_eq_two_or_mem (l : List ℕ) :
    flpScan l = 2 ∨ flpScan l ∈ l := by
  induction l with
  | nil => left; rfl
  | cons c rest ih =>
    rw [flpScan]
    by_cases hp : isPrime c
    · rw [if_pos hp]; right; exact List.mem_cons_self c rest
    · rw [if_neg hp]
      rcases ih with h | h
      · left; exact h
      · right; exact List.mem_cons_of_mem c h

theorem flpScan_maximal (l : List ℕ) (hsort : l.Pairwise (· > ·)) :
    ∀ q, Nat.Prime q → q ∈ l → q ≤ flpScan l := by
  induction l with
  | nil => intro q _ hq; cases hq
  | cons c rest ih =>
    intro q hq hmem
    rw [List.pairwise_cons] at hsort
    rw [flpScan]
    by_cases hp : isPrime c
    · rw [if_pos hp]
      rcases List.mem_cons.mp hmem with rfl | hr
      · exact le_rfl
      · exact le_of_lt (hsort.1 q hr)
    · rw [if_neg hp]
      rcases List.mem_cons.mp hmem with rfl | hr
      · exact absurd ((isPrime_iff q).mpr hq) hp
      · exact ih hsort.2 q hq hr

theorem findLargePrime_prime (m : ℕ) : Nat.Prime (findLargePrime m) :=
  flpScan_prime _

theorem findLargePrime_two_le (m : ℕ) : 2 ≤ findLargePrime m :=
  (findLargePrime_prime m).two_le

theorem findLargePrime_lt (m : ℕ) (h : 3 ≤ m) : findLargePrime m < m := by
  unfold findLargePrime
  rcases flpScan_eq_two_or_mem (List.range' 3 (m - 3)).reverse with he | hm
  · omega
  · rw [List.mem_reverse, List.mem_range'_1] at hm
    omega

theorem findLargePrime_maximal (m : ℕ) :
    ∀ q, Nat.Prime q → q < m → q ≤ findLargePrime m := by
  intro q hq hqm
  rcases Nat.lt_or_ge q 3 with hq2 | hq3
  · have : q = 2 := by have := hq.two_le; omega
    subst this
    exact findLargePrime_two_le m
  · unfold findLargePrime
    apply flpScan_maximal
    · rw [List.pairwise_reverse]
      exact List.pairwise_lt_range' 3 (m - 3)
    · exact hq
    · rw [List.mem_reverse, List.mem_range'_1]
      omega

/-- Key number-theoretic fact behind distribution uniqueness: for
`total ≥ 3` the prime step returned by `findLargePrime` is coprime to
`total` (via Bertrand's postulate: a proper prime divisor of `total`
cannot be the largest prime below `total`). -/
theorem findLargePrime_coprime (total : ℕ) (h3 : 3 ≤ total) :
    Nat.Coprime (findLargePrime total) total := by
  set p := findLargePrime total with hp
  have hprime : Nat.Prime p := findLargePrime_prime total
  have hlt : p < total := findLargePrime_lt total h3
  by_contra hcop
  rw [hprime.coprime_iff_not_dvd, not_not] at hcop
  obtain ⟨k, hk⟩ := hcop
  have hp2 : 2 ≤ p := hprime.two_le
  have hk2 : 2 ≤ k := by
    rcases Nat.lt_or_ge k 2 with hk1 | hk1
    · interval_cases k <;> omega
    · exact hk1
  have h2p : 2 * p ≤ total := by nlinarith
  obtain ⟨q, hq, hpq, hq2p⟩ := Nat.exists_prime_lt_and_le_two_mul p (by omega)
  have hqtotal : q ≤ total := by omega
  rcases eq_or_lt_of_le hqtotal with heq | hlt2
  · subst heq
    rcases hq.eq_one_or_self_of_dvd p ⟨k, hk⟩ with h1 | hself
    · omega
    · omega
  · have := findLargePrime_maximal total q hq hlt2
    omega

/-! ### The distribution sequence -/

theorem distLoop_length (total step : ℕ) :
    ∀ k current, (distLoop total step current k).length = k := by
  intro k
  induction k with
  | zero => intro current; rfl
  | succ k ih =>
    intro current
    rw [distLoop, List.length_cons, ih]

theorem distLoop_getD (total step : ℕ) :
    ∀ k current i, i < k →
      (distLoop total step current k).getD i 0 = (current + i * step) % total := by
  intro k
  induction k with
  | zero => intro current i hi; omega
  | succ k ih =>
    intro current i hi
    rw [distLoop]
    cases i with
    | zero => simp
    | succ i =>
      rw [List.getD_cons_succ, ih ((current + step) % total) i (by omega),
        Nat.mod_add_mod]
      congr 1
      ring

theorem generateDistributionPattern_eq (need total : ℕ) (h : need ≤ total) :
    generateDistributionPattern need total =
      .ok (distLoop total (findLargePrime total) 0 need) := by
  unfold generateDistributionPattern
  rw [if_neg (by omega)]

theorem distLoop_entry (need total : ℕ) (i : ℕ) (hi : i < need) :
    (distLoop total (findLargePrime total) 0 need).getD i 0 =
      (i * findLargePrime total) % total := by
  rw [distLoop_getD total (findLargePrime total) need 0 i hi, Nat.zero_add]

/-- With a step coprime to `total`, the first `need ≤ total` entries of
the distribution sequence are pairwise distinct. -/
theorem distLoop_nodup (need total : ℕ) (h : need ≤ total) (h3 : 3 ≤ total) :
    (distLoop total (findLargePrime total) 0 need).Nodup := by
  set p := findLargePrime total with hp
  have hcop : Nat.Coprime p total := findLargePrime_coprime total h3
  rw [List.nodup_iff_injective_get]
  intro ⟨i, hi⟩ ⟨j, hj⟩ hij
  rw [distLoop_length] at hi hj
  have hgi := distLoop_entry need total i hi
  have hgj := distLoop_entry need total j hj
  rw [List.getD_eq_getElem _ _ (by rw [distLoop_length]; exact hi)] at hgi
  rw [List.getD_eq_getElem _ _ (by rw [distLoop_length]; exact hj)] at hgj
  simp only [List.get_eq_getElem] at hij
  have hmod : (i * p) % total = (j * p) % total := by
    rw [← hgi, ← hgj, hij]
  have hme : i ≡ j [MOD total] :=
    Nat.ModEq.cancel_right_of_coprime (by rwa [Nat.coprime_comm] at hcop) hmod
  have : i % total = j % total := hme
  have : i = j := by
    rw [Nat.mod_eq_of_lt (by omega), Nat.mod_eq_of_lt (by omega)] at this
    exact this
  simp [this]

/-! ### Claim C8 -/

/-- C8: for every `need ≤ total`, the distribution sequence is produced
without error, has exactly `need` entries, entry `i` equals
`(i * p) % total` where `p = findLargePrime total` (the largest prime
below `total`, with fallback 2), and every entry lies in `[0, total)`. -/
theorem claim_C8 (need total : ℕ) (h : need ≤ total) :
    ∃ l, generateDistributionPattern need total = .ok l ∧
      l.length = need ∧
      ∀ i, i < need →
        l.getD i 0 = (i * findLargePrime total) % total ∧ l.getD i 0 < total := by
  refine ⟨distLoop total (findLargePrime total) 0 need,
    generateDistributionPattern_eq need total h, distLoop_length total _ need 0,
    fun i hi => ⟨distLoop_entry need total i hi, ?_⟩⟩
  rw [distLoop_entry need total i hi]
  exact Nat.mod_lt _ (by omega)

theorem claim_C8_witness :
    3 ≤ 5 ∧
      (∃ l, generateDistributionPattern 3 5 = .ok l ∧
        l.length = 3 ∧
        ∀ i, i < 3 →
          l.getD i 0 = (i * findLargePrime 5) % 5 ∧ l.getD i 0 < 5) :=
  ⟨by decide, claim_C8 3 5 (by decide)⟩

/-! ### Claim C2 -/

/-- C2 as stated is refuted at `need = 2, total = 2`: the step prime
falls back to 2, which divides `total`, and the generated sequence is
`[0, 0]` — its entries are not pairwise distinct (the source's own
`validateDistribution` rejects it). -/
theorem claim_C2_counterexample :
    2 ≤ 2 ∧ (2 : ℕ) ≥ 2 ∧
      generateDistributionPattern 2 2 = .ok [0, 0] ∧
      ¬ ([0, 0] : List ℕ).Nodup ∧
      validateDistribution [0, 0] = false :=
  ⟨le_rfl, le_rfl, rfl, by decide, by decide⟩

/-- C2, amended: for `need ≤ total` with `total ≥ 3` (rather than
`total ≥ 2`), all entries of the distribution sequence are pairwise
distinct. -/
theorem claim_C2 (need total : ℕ) (h : need ≤ total) (h3 : 3 ≤ total) :
    ∃ l, generateDistributionPattern need total = .ok l ∧ l.Nodup :=
  ⟨distLoop total (findLargePrime total) 0 need,
    generateDistributionPattern_eq need total h,
    distLoop_nodup need total h h3⟩

theorem claim_C2_witness :
    4 ≤ 5 ∧ 3 ≤ 5 ∧
      (∃ l, generateDistributionPattern 4 5 = .ok l ∧ l.Nodup) :=
  ⟨by decide, by decide, claim_C2 4 5 (by decide) (by decide)⟩

/-! ## bit-utils.ts -/

/-- One shift-feedback round of `calculateChecksum`.  As in the JS
source, the register is not masked between rounds; only the final
result is masked to 16 bits (the garbage bits at positions ≥ 16 are
only ever shifted further left and never flow back down). -/
def crcRound (c : ℕ) : ℕ :=
  if c &&& 0x8000 ≠ 0 then (c <<< 1) ^^^ 0x1021 else c <<< 1

/-- The inner `for (let i = 0; i < 8; i++)` loop of `calculateChecksum`. -/
def crcRounds : ℕ → ℕ → ℕ
  | 0, c => c
  | k + 1, c => crcRounds k (crcRound c)

/-- `calculateChecksum` from bit-utils.ts: CRC-16/CCITT-FALSE (initial
register 0xFFFF, polynomial 0x1021, no reflection, no final XOR). -/
def calculateChecksum (data : List ℕ) : ℕ :=
  (data.foldl (fun c b => crcRounds 8 (c ^^^ (b <<< 8))) 0xFFFF) &&& 0xFFFF

/-- Big-endian bit emission: the JS pattern
`for (let i = w-1; i >= 0; i--) bits.push(((v >> i) & 1) === 1)`. -/
def natToBitsBE (w v : ℕ) : List Bool :=
  (List.range w).map (fun k => (v >>> (w - 1 - k)) &&& 1 == 1)

/-- The frame laid out by `encodeSecondaryMessage`:
16-bit length, payload bytes MSB-first, 16-bit CRC. -/
def frameBits (messageBytes : List ℕ) : List Bool :=
  natToBitsBE 16 messageBytes.length ++
    (messageBytes.map (natToBitsBE 8)).flatten ++
    natToBitsBE 16 (calculateChecksum messageBytes)

/-- `encodeSecondaryMessage` from bit-utils.ts (the message is given by
its UTF-8 bytes). -/
def encodeSecondaryMessage (messageBytes : List ℕ) (maxBits : ℕ) :
    Except StegoError (List Bool) :=
  if 32 + messageBytes.length * 8 > maxBits then .error .payloadTooLarge
  else .ok (frameBits messageBytes)

/-- Array read `bits[i]`: every index the decoder reads is in range, and
JS would treat an out-of-range read as falsy. -/
def bitAt (bits : List Bool) (i : ℕ) : Bool :=
  bits.getD i false

/-- Big-endian field read: the JS pattern
`for (let k = 0; k < w; k++) if (bits[off+k]) v |= 1 << (w-1-k)`. -/
def readBE (bits : List Bool) (off w : ℕ) : ℕ :=
  (List.range w).foldl
    (fun v k => if bitAt bits (off + k) then v ||| (1 <<< (w - 1 - k)) else v) 0

/-- The extracted-length field of a frame (the JS local `length`). -/
def frameLen (bits : List Bool) : ℕ :=
  readBE bits 0 16

/-- The extracted payload bytes of a frame (the JS local `messageBytes`). -/
def frameMessageBytes (bits : List Bool) : List ℕ :=
  (List.range (frameLen bits)).map (fun byteIdx => readBE bits (16 + byteIdx * 8) 8)

/-- `decodeSecondaryMessage` from bit-utils.ts.  The JS length check
`length > (bits.length - 32) / 8` uses real division; for the integer
`length` it is equivalent to the floor comparison used here. -/
def decodeSecondaryMessage (bits : List Bool) : Except StegoError (List ℕ) :=
  if bits.length < 32 then .error .shortFrame
  else if frameLen bits > (bits.length - 32) / 8 then .error .badLength
  else if frameLen bits = 0 then .ok []
  else if readBE bits (16 + frameLen bits * 8) 16 ≠
      calculateChecksum (frameMessageBytes bits) then .error .checksumMismatch
  else .ok (frameMessageBytes bits)

/-! ### Reading back big-endian fields -/

/-- Recursive characterization of a big-endian field read (proof
vehicle for the `foldl` in `readBE`). -/
def readSum (bits : List Bool) : ℕ → ℕ → ℕ
  | _, 0 => 0
  | off, w + 1 => (if bitAt bits off then 2 ^ w else 0) + readSum bits (off + 1) w

theorem readBE_foldl_eq (bits : List Bool) :
    ∀ w off a m, a = 2 ^ w * m →
      (List.range w).foldl
        (fun v k => if bitAt bits (off + k) then v ||| (1 <<< (w - 1 - k)) else v) a
        = a + readSum bits off w := by
  intro w
  induction w with
  | zero => intro off a m ha; simp [readSum]
  | succ w ih =>
    intro off a m ha
    rw [List.range_succ_eq_map, List.foldl_cons, List.foldl_map]
    have hstep : (fun (x : ℕ) (k : ℕ) => if bitAt bits (off + Nat.succ k) then
          x ||| (1 <<< (w + 1 - 1 - Nat.succ k)) else x)
        = (fun (x : ℕ) (k : ℕ) => if bitAt bits (off + 1 + k) then
          x ||| (1 <<< (w - 1 - k)) else x) := by
      funext x k
      have h1 : off + Nat.succ k = off + 1 + k := by omega
      have h2 : w + 1 - 1 - Nat.succ k = w - 1 - k := by omega
      rw [h1, h2]
    have hpow : (0 : ℕ) < 2 ^ w := Nat.pos_pow_of_pos w (by omega)
    have hfirst : (if bitAt bits (off + 0) then a ||| (1 <<< (w + 1 - 1 - 0)) else a)
        = a + (if bitAt bits off then 2 ^ w else 0) := by
      rw [Nat.add_zero]
      by_cases hb : bitAt bits off
      · rw [if_pos hb, if_pos hb]
        have hw : w + 1 - 1 - 0 = w := by omega
        have hshift : (1 : ℕ) <<< (w + 1 - 1 - 0) = 2 ^ w := by
          rw [Nat.shiftLeft_eq, Nat.one_mul, hw]
        have hor : a + 2 ^ w = a ||| 2 ^ w := by
          rw [ha, show (2 : ℕ) ^ (w + 1) * m = 2 ^ (w + 1) * m from rfl]
          exact Nat.mul_add_lt_is_or (by rw [Nat.pow_succ]; omega) m
        rw [hshift, ← hor]
      · rw [if_neg hb, if_neg hb, Nat.add_zero]
    rw [hstep, hfirst]
    have hmul : a + (if bitAt bits off then 2 ^ w else 0)
        = 2 ^ w * (2 * m + (if bitAt bits off then 1 else 0)) := by
      by_cases hb : bitAt bits off
      · rw [if_pos hb, if_pos hb, ha, Nat.pow_succ]; ring
      · rw [if_neg hb, if_neg hb, ha, Nat.pow_succ]; ring
    rw [ih (off + 1) _ _ hmul, readSum]
    omega

theorem readBE_eq_readSum (bits : List Bool) (off w : ℕ) :
    readBE bits off w = readSum bits off w := by
  unfold readBE
  rw [readBE_foldl_eq bits w off 0 0 (by ring), Nat.zero_add]

theorem readSum_lt (bits : List Bool) : ∀ w off, readSum bits off w < 2 ^ w := by
  intro w
  induction w with
  | zero => intro off; rw [readSum]; omega
  | succ w ih =>
    intro off
    rw [readSum, Nat.pow_succ]
    have := ih (off + 1)
    by_cases hb : bitAt bits off
    · rw [if_pos hb]; omega
    · rw [if_neg hb]; omega

/-- Reading `w` bits that agree with `v`'s big-endian bits recovers `v`. -/
theorem readSum_of_bits (bits : List Bool) :
    ∀ w v off, v < 2 ^ w →
      (∀ k, k < w → bitAt bits (off + k) = v.testBit (w - 1 - k)) →
      readSum bits off w = v := by
  intro w
  induction w with
  | zero => intro v off hv _; rw [readSum]; omega
  | succ w ih =>
    intro v off hv h
    rw [readSum]
    have h0 : bitAt bits off = v.testBit w := by
      have := h 0 (by omega)
      rwa [Nat.add_zero, show w + 1 - 1 - 0 = w by omega] at this
    have hrest : readSum bits (off + 1) w = v % 2 ^ w := by
      apply ih (v % 2 ^ w) (off + 1) (Nat.mod_lt v (Nat.pos_pow_of_pos w (by omega)))
      intro k hk
      have hbit := h (k + 1) (by omega)
      rw [show off + (k + 1) = off + 1 + k by omega] at hbit
      rw [hbit, Nat.testBit_mod_two_pow]
      have hlt : w - 1 - k < w := by omega
      simp only [hlt, decide_True, Bool.true_and]
      congr 1
      omega
    rw [hrest, h0]
    have hpow : (0 : ℕ) < 2 ^ w := Nat.pos_pow_of_pos w (by omega)
    have hdiv : v / 2 ^ w < 2 := by
      apply Nat.div_lt_of_lt_mul
      rw [Nat.pow_succ] at hv
      omega
    rw [Nat.testBit_to_div_mod]
    have hdm := Nat.div_add_mod v (2 ^ w)
    rcases Nat.le_one_iff_eq_zero_or_eq_one.mp (Nat.lt_succ_iff.mp hdiv) with h01 | h01
    · rw [h01] at hdm
      rw [h01]
      norm_num
      omega
    · rw [h01] at hdm
      rw [h01]
      norm_num
      omega

/-! ### Bits of emitted fields -/

theorem bitAt_append (xs ys : List Bool) (i : ℕ) :
    bitAt (xs ++ ys) i =
      if i < xs.length then bitAt xs i else bitAt ys (i - xs.length) := by
  induction xs generalizing i with
  | nil => simp [bitAt]
  | cons x xs ih =>
    cases i with
    | zero => simp [bitAt]
    | succ i =>
      simp only [List.cons_append, bitAt, List.getD_cons_succ, List.length_cons]
      have := ih i
      unfold bitAt at this
      rw [this]
      by_cases hi : i < xs.length
      · rw [if_pos hi, if_pos (by omega)]
      · rw [if_neg hi, if_neg (by omega)]
        congr 1
        omega

theorem natToBitsBE_length (w v : ℕ) : (natToBitsBE w v).length = w := by
  simp [natToBitsBE]

theorem natToBitsBE_getD (w v k : ℕ) (hk : k < w) :
    (natToBitsBE w v).getD k false = v.testBit (w - 1 - k) := by
  unfold natToBitsBE
  rw [List.getD_eq_getElem?_getD, List.getElem?_map, List.getElem?_range hk]
  show ((v >>> (w - 1 - k)) &&& 1 == 1) = v.testBit (w - 1 - k)
  rw [Nat.and_one_is_mod, Nat.shiftRight_eq_div_pow, Nat.testBit_to_div_mod]
  by_cases h : v / 2 ^ (w - 1 - k) % 2 = 1 <;> simp [h]

theorem flatten_bytes_length (B : List ℕ) :
    ((B.map (natToBitsBE 8)).flatten).length = 8 * B.length := by
  induction B with
  | nil => simp
  | cons b rest ih =>
    simp only [List.map_cons, List.flatten_cons, List.length_append,
      natToBitsBE_length, List.length_cons, ih]
    ring

theorem flatten_bytes_bitAt (B : List ℕ) :
    ∀ j k, j < B.length → k < 8 →
      bitAt ((B.map (natToBitsBE 8)).flatten) (j * 8 + k) =
        (B.getD j 0).testBit (7 - k) := by
  induction B with
  | nil => intro j k hj _; simp at hj
  | cons b rest ih =>
    intro j k hj hk
    cases j with
    | zero =>
      simp only [List.map_cons, List.flatten_cons, Nat.zero_mul, Nat.zero_add]
      rw [bitAt_append, if_pos (by rw [natToBitsBE_length]; omega)]
      unfold bitAt
      rw [natToBitsBE_getD 8 b k hk]
      simp only [List.getD_cons_zero]
    | succ j =>
      simp only [List.map_cons, List.flatten_cons]
      rw [bitAt_append,
        if_neg (by rw [natToBitsBE_length]; omega)]
      rw [natToBitsBE_length,
        show (j + 1) * 8 + k - 8 = j * 8 + k by ring_nf; omega]
      rw [List.getD_cons_succ]
      exact ih j k (by simpa using Nat.lt_of_succ_lt_succ (by simpa using hj)) hk

theorem calculateChecksum_lt (B : List ℕ) : calculateChecksum B < 2 ^ 16 := by
  unfold calculateChecksum
  have : (0xFFFF : ℕ) < 2 ^ 16 := by norm_num
  exact Nat.and_lt_two_pow _ this

/-! ### The fields of an emitted frame -/

theorem frameBits_length (B : List ℕ) :
    (frameBits B).length = 32 + 8 * B.length := by
  simp only [frameBits, List.length_append, natToBitsBE_length,
    flatten_bytes_length]
  ring

theorem frameBits_bitAt_len (B : List ℕ) (k : ℕ) (hk : k < 16) :
    bitAt (frameBits B) k = (B.length).testBit (15 - k) := by
  unfold frameBits
  rw [List.append_assoc, bitAt_append,
    if_pos (by rw [natToBitsBE_length]; omega)]
  unfold bitAt
  rw [natToBitsBE_getD 16 _ k hk]

theorem frameBits_bitAt_payload (B : List ℕ) (j k : ℕ)
    (hj : j < B.length) (hk : k < 8) :
    bitAt (frameBits B) (16 + j * 8 + k) = (B.getD j 0).testBit (7 - k) := by
  unfold frameBits
  rw [List.append_assoc, bitAt_append,
    if_neg (by rw [natToBitsBE_length]; omega), natToBitsBE_length,
    show 16 + j * 8 + k - 16 = j * 8 + k by omega,
    bitAt_append, if_pos (by rw [flatten_bytes_length]; omega)]
  exact flatten_bytes_bitAt B j k hj hk

theorem frameBits_bitAt_crc (B : List ℕ) (k : ℕ) (hk : k < 16) :
    bitAt (frameBits B) (16 + B.length * 8 + k) =
      (calculateChecksum B).testBit (15 - k) := by
  unfold frameBits
  rw [List.append_assoc, bitAt_append,
    if_neg (by rw [natToBitsBE_length]; omega), natToBitsBE_length,
    show 16 + B.length * 8 + k - 16 = B.length * 8 + k by omega,
    bitAt_append, if_neg (by rw [flatten_bytes_length]; omega),
    flatten_bytes_length,
    show B.length * 8 + k - 8 * B.length = k by omega]
  unfold bitAt
  rw [natToBitsBE_getD 16 _ k hk]

theorem frameLen_frameBits (B : List ℕ) (hL : B.length < 2 ^ 16) :
    frameLen (frameBits B) = B.length := by
  unfold frameLen
  rw [readBE_eq_readSum]
  apply readSum_of_bits _ 16 _ 0 hL
  intro k hk
  rw [Nat.zero_add, frameBits_bitAt_len B k hk]

theorem readBE_frameBits_byte (B : List ℕ) (j : ℕ)
    (hj : j < B.length) (hbyte : B.getD j 0 < 256) :
    readBE (frameBits B) (16 + j * 8) 8 = B.getD j 0 := by
  rw [readBE_eq_readSum]
  apply readSum_of_bits _ 8 _ (16 + j * 8) (by norm_num at hbyte ⊢; omega)
  intro k hk
  rw [frameBits_bitAt_payload B j k hj hk]

theorem readBE_frameBits_crc (B : List ℕ) :
    readBE (frameBits B) (16 + B.length * 8) 16 = calculateChecksum B := by
  rw [readBE_eq_readSum]
  apply readSum_of_bits _ 16 _ (16 + B.length * 8) (calculateChecksum_lt B)
  intro k hk
  rw [frameBits_bitAt_crc B k hk]

theorem frameMessageBytes_frameBits (B : List ℕ) (hb : ∀ x ∈ B, x < 256)
    (hL : B.length < 2 ^ 16) :
    frameMessageBytes (frameBits B) = B := by
  unfold frameMessageBytes
  rw [frameLen_frameBits B hL]
  apply List.ext_getElem (by simp)
  intro i h1 h2
  simp only [List.getElem_map, List.getElem_range]
  have hi : i < B.length := by simpa using h2
  have hbyte : B.getD i 0 < 256 := by
    rw [List.getD_eq_getElem B 0 hi]
    exact hb _ (List.getElem_mem hi)
  rw [readBE_frameBits_byte B i hi hbyte, List.getD_eq_getElem B 0 hi]

/-- Frame round-trip at the byte level: decoding an emitted frame
recovers the original byte sequence (for byte counts that fit the
16-bit length field). -/
theorem decode_frameBits (B : List ℕ) (hb : ∀ x ∈ B, x < 256)
    (hL : B.length < 65536) :
    decodeSecondaryMessage (frameBits B) = .ok B := by
  have hL16 : B.length < 2 ^ 16 := by norm_num; omega
  unfold decodeSecondaryMessage
  rw [frameBits_length, frameLen_frameBits B hL16]
  rw [if_neg (by omega), if_neg (by omega)]
  by_cases hB0 : B.length = 0
  · rw [if_pos hB0]
    rw [List.length_eq_zero] at hB0
    rw [hB0]
  · rw [if_neg hB0, frameMessageBytes_frameBits B hb hL16,
      readBE_frameBits_crc B, if_neg (by simp)]

/-! ### Claim C9 -/

/-- C9: encoding the empty secondary message yields exactly the 32-bit
frame `0x0000 ‖ 0xFFFF` (16 zero bits, then 16 one bits), and the CRC
of the empty byte sequence is 0xFFFF. -/
theorem claim_C9 (maxBits : ℕ) (h : 32 ≤ maxBits) :
    encodeSecondaryMessage [] maxBits =
      .ok (List.replicate 16 false ++ List.replicate 16 true) ∧
    calculateChecksum [] = 0xFFFF := by
  constructor
  · unfold encodeSecondaryMessage
    rw [if_neg (by simp; omega)]
    have : frameBits [] = List.replicate 16 false ++ List.replicate 16 true := by
      decide
    rw [this]
  · decide

theorem claim_C9_witness :
    32 ≤ 100 ∧
      (encodeSecondaryMessage [] 100 =
          .ok (List.replicate 16 false ++ List.replicate 16 true) ∧
        calculateChecksum [] = 0xFFFF) :=
  ⟨by decide, claim_C9 100 (by decide)⟩

/-! ### Claim C6 -/

/-- C6 as stated is refuted by a secondary message of 65536 bytes: its
length does not fit the 16-bit length prefix, the emitted frame begins
with sixteen zero bits, and decoding returns the empty message instead
of the original one. -/
theorem claim_C6_counterexample :
    encodeSecondaryMessage (List.replicate 65536 120) 524320 =
        .ok (frameBits (List.replicate 65536 120)) ∧
      decodeSecondaryMessage (frameBits (List.replicate 65536 120)) = .ok [] ∧
      (List.replicate 65536 (120 : ℕ)) ≠ [] := by
  refine ⟨?_, ?_, ?_⟩
  · unfold encodeSecondaryMessage
    rw [if_neg (by rw [List.length_replicate]; norm_num)]
  · have hlen0 : frameLen (frameBits (List.replicate 65536 120)) = 0 := by
      unfold frameLen
      rw [readBE_eq_readSum]
      apply readSum_of_bits _ 16 0 0 (by norm_num)
      intro k hk
      rw [Nat.zero_add, frameBits_bitAt_len _ k hk, List.length_replicate,
        Nat.zero_testBit, show (65536 : ℕ) = 2 ^ 16 by norm_num]
      exact Nat.testBit_two_pow_of_ne (by omega)
    unfold decodeSecondaryMessage
    rw [frameBits_length, hlen0, List.length_replicate]
    rw [if_neg (by omega), if_neg (by omega), if_pos rfl]
  · intro h
    have h1 := congrArg List.length h
    rw [List.length_replicate, List.length_nil] at h1
    omega

/-- C6, amended: the frame round-trip holds for every message whose
UTF-8 byte length fits the 16-bit length prefix (at most 65535 bytes),
given `max_bits ≥ 32 + 8·|bytes|`. -/
theorem claim_C6 (B : List ℕ) (maxBits : ℕ) (hb : ∀ x ∈ B, x < 256)
    (hL : B.length < 65536) (hmax : 32 + 8 * B.length ≤ maxBits) :
    ∃ frame, encodeSecondaryMessage B maxBits = .ok frame ∧
      decodeSecondaryMessage frame = .ok B := by
  refine ⟨frameBits B, ?_, decode_frameBits B hb hL⟩
  unfold encodeSecondaryMessage
  rw [if_neg (by omega)]

theorem claim_C6_witness :
    (∀ x ∈ [83, 69, 67], x < 256) ∧ ([83, 69, 67] : List ℕ).length < 65536 ∧
      32 + 8 * ([83, 69, 67] : List ℕ).length ≤ 1000 ∧
      (∃ frame, encodeSecondaryMessage [83, 69, 67] 1000 = .ok frame ∧
        decodeSecondaryMessage frame = .ok [83, 69, 67]) :=
  ⟨by decide, by decide, by decide,
    claim_C6 [83, 69, 67] 1000 (by decide) (by decide) (by decide)⟩

/-! ### CRC-16: masked form, register bijectivity -/

/-- `crcRound` with the register truncated to 16 bits (proof vehicle:
the unmasked JS register's bits ≥ 16 never flow back down). -/
def crcRoundM (c : ℕ) : ℕ :=
  crcRound c &&& 0xFFFF

def crcRoundsM : ℕ → ℕ → ℕ
  | 0, c => c
  | k + 1, c => crcRoundsM k (crcRoundM c)

/-- One masked byte step of the CRC. -/
def crcStepM (c b : ℕ) : ℕ :=
  crcRoundsM 8 (c ^^^ (b <<< 8))

theorem mask16_eq_mod (x : ℕ) : x &&& 0xFFFF = x % 2 ^ 16 := by
  have h : (0xFFFF : ℕ) = 2 ^ 16 - 1 := by norm_num
  rw [h, Nat.and_pow_two_sub_one_eq_mod]

theorem xor_mod_two_pow (a b n : ℕ) :
    (a ^^^ b) % 2 ^ n = (a % 2 ^ n) ^^^ (b % 2 ^ n) := by
  apply Nat.eq_of_testBit_eq
  intro i
  simp only [Nat.testBit_mod_two_pow, Nat.testBit_xor]
  by_cases h : i < n <;> simp [h]

theorem cond_and_mask (c : ℕ) : (c &&& 0xFFFF) &&& 0x8000 = c &&& 0x8000 := by
  rw [Nat.and_assoc]
  have h : ((0xFFFF : ℕ) &&& 0x8000) = 0x8000 := by decide
  rw [h]

theorem crcRound_mask (c : ℕ) :
    crcRound (c &&& 0xFFFF) &&& 0xFFFF = crcRound c &&& 0xFFFF := by
  unfold crcRound
  rw [cond_and_mask]
  have hshift : (c % 2 ^ 16) <<< 1 % 2 ^ 16 = c <<< 1 % 2 ^ 16 := by
    rw [Nat.shiftLeft_eq, Nat.shiftLeft_eq, Nat.mod_mul_mod]
  by_cases h : c &&& 0x8000 ≠ 0
  · rw [if_pos h, if_pos h]
    simp only [mask16_eq_mod]
    rw [xor_mod_two_pow, xor_mod_two_pow, hshift]
  · rw [if_neg h, if_neg h]
    simp only [mask16_eq_mod]
    rw [hshift]

theorem crcRounds_mask : ∀ k c,
    crcRounds k c &&& 0xFFFF = crcRoundsM k (c &&& 0xFFFF) := by
  intro k
  induction k with
  | zero => intro c; rfl
  | succ k ih =>
    intro c
    rw [crcRounds, crcRoundsM, ih (crcRound c)]
    unfold crcRoundM
    rw [crcRound_mask]

theorem calculateChecksum_eq_masked (data : List ℕ) (h : ∀ b ∈ data, b < 256) :
    calculateChecksum data = data.foldl crcStepM 0xFFFF := by
  unfold calculateChecksum
  have key : ∀ (l : List ℕ) (c : ℕ), (∀ b ∈ l, b < 256) →
      (l.foldl (fun c b => crcRounds 8 (c ^^^ (b <<< 8))) c) &&& 0xFFFF
        = l.foldl crcStepM (c &&& 0xFFFF) := by
    intro l
    induction l with
    | nil => intro c _; rfl
    | cons b rest ih =>
      intro c hv
      rw [List.foldl_cons, List.foldl_cons,
        ih _ (fun x hx => hv x (List.mem_cons_of_mem b hx))]
      congr 1
      rw [crcRounds_mask]
      unfold crcStepM
      congr 1
      have hb : b < 256 := hv b (List.mem_cons_self b rest)
      have hbs : b <<< 8 < 2 ^ 16 := by
        rw [Nat.shiftLeft_eq]
        norm_num
        omega
      rw [mask16_eq_mod, xor_mod_two_pow, Nat.mod_eq_of_lt hbs, ← mask16_eq_mod]
  rw [key data 0xFFFF h]
  norm_num

theorem crcRoundM_lt (c : ℕ) : crcRoundM c < 2 ^ 16 :=
  Nat.and_lt_two_pow _ (by norm_num)

theorem crcRoundsM_preserve : ∀ k c, c < 2 ^ 16 → crcRoundsM k c < 2 ^ 16 := by
  intro k
  induction k with
  | zero => intro c hc; exact hc
  | succ k ih => intro c _; rw [crcRoundsM]; exact ih _ (crcRoundM_lt c)

theorem crcStepM_lt (c b : ℕ) : crcStepM c b < 2 ^ 16 := by
  unfold crcStepM
  rw [show (8 : ℕ) = 7 + 1 from rfl, crcRoundsM]
  exact crcRoundsM_preserve 7 _ (crcRoundM_lt _)

theorem crcRoundM_parity (c : ℕ) :
    crcRoundM c % 2 = if c &&& 0x8000 ≠ 0 then 1 else 0 := by
  unfold crcRoundM crcRound
  have hdvd : (2 : ℕ) ∣ 2 ^ 16 := by norm_num
  by_cases h : c &&& 0x8000 ≠ 0
  · rw [if_pos h, if_pos h, mask16_eq_mod, Nat.mod_mod_of_dvd _ hdvd]
    rw [Nat.xor_mod_two_eq_one]
    have h2 : c <<< 1 % 2 = 0 := by rw [Nat.shiftLeft_eq]; omega
    simp [h2]
  · rw [if_neg h, if_neg h, mask16_eq_mod, Nat.mod_mod_of_dvd _ hdvd,
      Nat.shiftLeft_eq]
    omega

theorem highBit_iff (c : ℕ) (hc : c < 2 ^ 16) :
    (c &&& 0x8000 ≠ 0) ↔ 2 ^ 15 ≤ c := by
  have h08 : (0x8000 : ℕ) = 2 ^ 15 := by norm_num
  rw [h08, Nat.and_two_pow]
  constructor
  · intro hne
    rcases Bool.eq_false_or_eq_true (c.testBit 15) with hb | hb
    · exact Nat.testBit_implies_ge hb
    · rw [hb] at hne; simp at hne
  · intro hge
    have hbit : c.testBit 15 = true := by
      rw [Nat.testBit_to_div_mod]
      have hd : c / 2 ^ 15 = 1 := by omega
      rw [hd]
      rfl
    rw [hbit]
    simp

theorem crcRoundM_inj (c1 c2 : ℕ) (h1 : c1 < 2 ^ 16) (h2 : c2 < 2 ^ 16)
    (he : crcRoundM c1 = crcRoundM c2) : c1 = c2 := by
  have hpar1 := crcRoundM_parity c1
  have hpar2 := crcRoundM_parity c2
  rw [he] at hpar1
  have hcond : (c1 &&& 0x8000 ≠ 0) ↔ (c2 &&& 0x8000 ≠ 0) := by
    by_cases a : c1 &&& 0x8000 ≠ 0 <;> by_cases b : c2 &&& 0x8000 ≠ 0
    · exact iff_of_true a b
    · rw [if_pos a] at hpar1; rw [if_neg b] at hpar2; omega
    · rw [if_neg a] at hpar1; rw [if_pos b] at hpar2; omega
    · exact iff_of_false a b
  by_cases hc : c1 &&& 0x8000 ≠ 0
  · have hc2 : c2 &&& 0x8000 ≠ 0 := hcond.mp hc
    have hb1 : 2 ^ 15 ≤ c1 := (highBit_iff c1 h1).mp hc
    have hb2 : 2 ^ 15 ≤ c2 := (highBit_iff c2 h2).mp hc2
    unfold crcRoundM crcRound at he
    rw [if_pos hc, if_pos hc2, mask16_eq_mod, mask16_eq_mod,
      xor_mod_two_pow, xor_mod_two_pow] at he
    have hx : c1 <<< 1 % 2 ^ 16 = c2 <<< 1 % 2 ^ 16 := by
      have hcompat := congrArg (· ^^^ ((0x1021 : ℕ) % 2 ^ 16)) he
      simpa [Nat.xor_cancel_right] using hcompat
    rw [Nat.shiftLeft_eq, Nat.shiftLeft_eq] at hx
    omega
  · have hc2 : ¬ (c2 &&& 0x8000 ≠ 0) := fun h => hc (hcond.mpr h)
    have hb1 : ¬ 2 ^ 15 ≤ c1 := fun h => hc ((highBit_iff c1 h1).mpr h)
    have hb2 : ¬ 2 ^ 15 ≤ c2 := fun h => hc2 ((highBit_iff c2 h2).mpr h)
    unfold crcRoundM crcRound at he
    rw [if_neg hc, if_neg hc2, mask16_eq_mod, mask16_eq_mod] at he
    rw [Nat.shiftLeft_eq, Nat.shiftLeft_eq] at he
    omega

theorem crcRoundsM_inj : ∀ k c1 c2, c1 < 2 ^ 16 → c2 < 2 ^ 16 →
    crcRoundsM k c1 = crcRoundsM k c2 → c1 = c2 := by
  intro k
  induction k with
  | zero => intro c1 c2 _ _ he; exact he
  | succ k ih =>
    intro c1 c2 h1 h2 he
    rw [crcRoundsM, crcRoundsM] at he
    exact crcRoundM_inj c1 c2 h1 h2
      (ih _ _ (crcRoundM_lt c1) (crcRoundM_lt c2) he)

theorem shiftLeft8_lt (b : ℕ) (hb : b < 256) : b <<< 8 < 2 ^ 16 := by
  rw [Nat.shiftLeft_eq]
  norm_num
  omega

theorem crcStepM_inj_reg (c1 c2 b : ℕ) (h1 : c1 < 2 ^ 16) (h2 : c2 < 2 ^ 16)
    (hb : b < 256) (he : crcStepM c1 b = crcStepM c2 b) : c1 = c2 := by
  unfold crcStepM at he
  have hbs := shiftLeft8_lt b hb
  have hxe := crcRoundsM_inj 8 _ _ (Nat.xor_lt_two_pow h1 hbs)
    (Nat.xor_lt_two_pow h2 hbs) he
  have hcompat := congrArg (· ^^^ (b <<< 8)) hxe
  simpa [Nat.xor_cancel_right] using hcompat

theorem crcStepM_inj_byte (c b1 b2 : ℕ) (hc : c < 2 ^ 16) (hb1 : b1 < 256)
    (hb2 : b2 < 256) (hne : b1 ≠ b2) : crcStepM c b1 ≠ crcStepM c b2 := by
  intro he
  unfold crcStepM at he
  have hxe := crcRoundsM_inj 8 _ _ (Nat.xor_lt_two_pow hc (shiftLeft8_lt b1 hb1))
    (Nat.xor_lt_two_pow hc (shiftLeft8_lt b2 hb2)) he
  have hss : b1 <<< 8 = b2 <<< 8 := by
    have hcompat := congrArg (c ^^^ ·) hxe
    simpa [Nat.xor_cancel_left] using hcompat
  rw [Nat.shiftLeft_eq, Nat.shiftLeft_eq] at hss
  omega

theorem foldlM_inj_reg : ∀ (l : List ℕ) (c1 c2 : ℕ), c1 < 2 ^ 16 → c2 < 2 ^ 16 →
    (∀ x ∈ l, x < 256) →
    l.foldl crcStepM c1 = l.foldl crcStepM c2 → c1 = c2 := by
  intro l
  induction l with
  | nil => intro c1 c2 _ _ _ he; exact he
  | cons b rest ih =>
    intro c1 c2 h1 h2 hv he
    rw [List.foldl_cons, List.foldl_cons] at he
    exact crcStepM_inj_reg c1 c2 b h1 h2 (hv b (List.mem_cons_self b rest))
      (ih _ _ (crcStepM_lt c1 b) (crcStepM_lt c2 b)
        (fun x hx => hv x (List.mem_cons_of_mem b hx)) he)

theorem foldlM_set_ne : ∀ (B : List ℕ) (j b' c : ℕ), c < 2 ^ 16 →
    (∀ x ∈ B, x < 256) → b' < 256 → j < B.length → b' ≠ B.getD j 0 →
    (B.set j b').foldl crcStepM c ≠ B.foldl crcStepM c := by
  intro B
  induction B with
  | nil => intro j _ _ _ _ _ hj; simp at hj
  | cons b rest ih =>
    intro j b' c hc hv hb' hj hne
    have hvb : b < 256 := hv b (List.mem_cons_self b rest)
    have hvr : ∀ x ∈ rest, x < 256 := fun x hx => hv x (List.mem_cons_of_mem b hx)
    cases j with
    | zero =>
      rw [List.set_cons_zero, List.foldl_cons, List.foldl_cons]
      intro he
      have hbb : b' ≠ b := by simpa using hne
      have hreg := foldlM_inj_reg rest _ _ (crcStepM_lt c b') (crcStepM_lt c b)
        hvr he
      exact crcStepM_inj_byte c b' b hc hb' hvb hbb hreg
    | succ j =>
      rw [List.set_cons_succ, List.foldl_cons, List.foldl_cons]
      exact ih j b' (crcStepM c b) (crcStepM_lt c b) hvr hb'
        (by simpa using hj) (by simpa using hne)

/-- Changing a single byte of the input changes the CRC (register steps
are bijective, so the first differing register value propagates). -/
theorem calculateChecksum_set_ne (B : List ℕ) (j b' : ℕ)
    (hv : ∀ x ∈ B, x < 256) (hb' : b' < 256) (hj : j < B.length)
    (hne : b' ≠ B.getD j 0) :
    calculateChecksum (B.set j b') ≠ calculateChecksum B := by
  have hvset : ∀ x ∈ B.set j b', x < 256 := by
    intro x hx
    rcases List.mem_or_eq_of_mem_set hx with h | h
    · exact hv x h
    · rw [h]; exact hb'
  rw [calculateChecksum_eq_masked B hv, calculateChecksum_eq_masked _ hvset]
  exact foldlM_set_ne B j b' 0xFFFF (by norm_num) hv hb' hj hne

theorem bitAt_set (l : List Bool) :
    ∀ p i v, bitAt (l.set p v) i =
      if i = p ∧ p < l.length then v else bitAt l i := by
  induction l with
  | nil =>
    intro p i v
    rw [if_neg (by simp)]
    rfl
  | cons x xs ih =>
    intro p i v
    cases p with
    | zero =>
      cases i with
      | zero => simp [bitAt]
      | succ i => simp [bitAt]
    | succ p =>
      cases i with
      | zero => simp [bitAt]
      | succ i =>
        rw [List.set_cons_succ]
        show bitAt (xs.set p v) i = _
        rw [ih p i v]
        by_cases h : i = p ∧ p < xs.length
        · rw [if_pos h, if_pos (by simp; omega)]
        · rw [if_neg h, if_neg (by simp; omega)]
          rfl

/-! ### Claim C7 -/

/-- C7 as stated is refuted by a secondary message of 65536 bytes: the
16-bit length prefix truncates to zero, so after flipping a payload bit
the decoder still reads length 0 and returns the empty message instead
of raising `ChecksumMismatch`. -/
theorem claim_C7_counterexample :
    16 ≤ 16 ∧ 16 < 16 + 8 * (List.replicate 65536 (65 : ℕ)).length ∧
      decodeSecondaryMessage ((frameBits (List.replicate 65536 65)).set 16
          (!(bitAt (frameBits (List.replicate 65536 65)) 16))) = .ok [] := by
  refine ⟨le_rfl, by rw [List.length_replicate]; norm_num, ?_⟩
  have hflen : (frameBits (List.replicate 65536 (65 : ℕ))).length
      = 32 + 8 * 65536 := by
    rw [frameBits_length, List.length_replicate]
  have hTlen : ((frameBits (List.replicate 65536 (65 : ℕ))).set 16
      (!(bitAt (frameBits (List.replicate 65536 65)) 16))).length
      = 32 + 8 * 65536 := by
    rw [List.length_set, hflen]
  have hlen0 : frameLen ((frameBits (List.replicate 65536 (65 : ℕ))).set 16
      (!(bitAt (frameBits (List.replicate 65536 65)) 16))) = 0 := by
    unfold frameLen
    rw [readBE_eq_readSum]
    apply readSum_of_bits _ 16 0 0 (by norm_num)
    intro k hk
    rw [Nat.zero_add, bitAt_set, if_neg (by omega),
      frameBits_bitAt_len _ k hk, List.length_replicate, Nat.zero_testBit,
      show (65536 : ℕ) = 2 ^ 16 by norm_num]
    exact Nat.testBit_two_pow_of_ne (by omega)
  unfold decodeSecondaryMessage
  rw [hTlen, hlen0]
  rw [if_neg (by omega), if_neg (by omega), if_pos rfl]

/-- C7, amended: for messages of at most 65535 bytes (so that the
length fits its 16-bit field) and `max_bits ≥ 32 + 8·|bytes|`, flipping
any single bit in the payload region (offsets `[16, 16 + 8·|bytes|)`)
of the encoded frame makes the decoder fail with `ChecksumMismatch`. -/
theorem claim_C7 (B : List ℕ) (maxBits pos : ℕ) (hb : ∀ x ∈ B, x < 256)
    (hL : B.length < 65536) (hmax : 32 + 8 * B.length ≤ maxBits)
    (hpos1 : 16 ≤ pos) (hpos2 : pos < 16 + 8 * B.length) :
    encodeSecondaryMessage B maxBits = .ok (frameBits B) ∧
      decodeSecondaryMessage
          ((frameBits B).set pos (!(bitAt (frameBits B) pos))) =
        .error .checksumMismatch := by
  have henc : encodeSecondaryMessage B maxBits = .ok (frameBits B) := by
    unfold encodeSecondaryMessage
    rw [if_neg (by omega)]
  refine ⟨henc, ?_⟩
  have hL16 : B.length < 2 ^ 16 := by norm_num; omega
  obtain ⟨j, k, hk8, hpose, hj⟩ :
      ∃ j k, k < 8 ∧ pos = 16 + j * 8 + k ∧ j < B.length :=
    ⟨(pos - 16) / 8, (pos - 16) % 8, Nat.mod_lt _ (by omega), by omega, by omega⟩
  set F := frameBits B with hF
  set T := F.set pos (!(bitAt F pos)) with hT
  set b1 := B.getD j 0 ^^^ 2 ^ (7 - k) with hb1def
  have hbB : B.getD j 0 < 256 := by
    rw [List.getD_eq_getElem B 0 hj]
    exact hb _ (List.getElem_mem hj)
  have hb1lt : b1 < 256 := by
    have h1 : B.getD j 0 < 2 ^ 8 := by omega
    have h2 : 2 ^ (7 - k) < 2 ^ 8 := Nat.pow_lt_pow_right (by omega) (by omega)
    have h3 := Nat.xor_lt_two_pow h1 h2
    rw [hb1def]
    omega
  have hb1ne : b1 ≠ B.getD j 0 := by
    rw [hb1def]
    intro h
    have hc2 := congrArg (fun y => B.getD j 0 ^^^ y) h
    simp only [Nat.xor_cancel_left, Nat.xor_self] at hc2
    have := Nat.pos_pow_of_pos (7 - k) (show 0 < 2 by omega)
    omega
  have hflen : F.length = 32 + 8 * B.length := frameBits_length B
  have hTlen : T.length = 32 + 8 * B.length := by
    rw [hT, List.length_set, hflen]
  have hbit_ne : ∀ i, i ≠ pos → bitAt T i = bitAt F i := by
    intro i hi
    rw [hT, bitAt_set, if_neg (by tauto)]
  have hbit_pos : bitAt T pos = !(bitAt F pos) := by
    rw [hT, bitAt_set, if_pos ⟨rfl, by omega⟩]
  have hlenT : frameLen T = B.length := by
    unfold frameLen
    rw [readBE_eq_readSum]
    apply readSum_of_bits _ 16 _ 0 hL16
    intro t ht
    rw [Nat.zero_add, hbit_ne t (by omega), hF, frameBits_bitAt_len B t ht]
  have hmsg : frameMessageBytes T = B.set j b1 := by
    unfold frameMessageBytes
    rw [hlenT]
    apply List.ext_getElem (by simp)
    intro i h1 h2
    simp only [List.getElem_map, List.getElem_range]
    have hi : i < B.length := by simpa using h1
    by_cases hij : i = j
    · subst hij
      have h2x : i < (B.set i b1).length := by simpa using h2
      have hset : (B.set i b1)[i] = b1 :=
        List.getElem_set_self (by simpa using h2)
      rw [hset, readBE_eq_readSum]
      apply readSum_of_bits _ 8 _ (16 + i * 8) (by norm_num at hb1lt ⊢; omega)
      intro t ht
      have h78 : (8 : ℕ) - 1 - t = 7 - t := by omega
      by_cases htk : t = k
      · subst htk
        rw [show 16 + i * 8 + t = pos from by omega, hbit_pos, hF,
          show pos = 16 + i * 8 + t from by omega,
          frameBits_bitAt_payload B i t hi ht, hb1def, h78,
          Nat.testBit_xor, Nat.testBit_two_pow_self, Bool.xor_true]
      · rw [hbit_ne _ (by omega), hF,
          frameBits_bitAt_payload B i t hi ht, hb1def, h78,
          Nat.testBit_xor, Nat.testBit_two_pow_of_ne (by omega), Bool.xor_false]
    · have h2x : i < (B.set j b1).length := by simpa using h2
      have hset : (B.set j b1)[i] = B[i] :=
        List.getElem_set_ne (fun h => hij h.symm) (by simpa using h2)
      rw [hset, readBE_eq_readSum, ← List.getD_eq_getElem B 0 hi]
      apply readSum_of_bits _ 8 _ (16 + i * 8) (by
        rw [List.getD_eq_getElem B 0 hi]
        have := hb _ (List.getElem_mem hi)
        norm_num
        omega)
      intro t ht
      have h78 : (8 : ℕ) - 1 - t = 7 - t := by omega
      rw [hbit_ne _ (by omega), hF, frameBits_bitAt_payload B i t hi ht, h78]
  have hcrcT : readBE T (16 + B.length * 8) 16 = calculateChecksum B := by
    rw [readBE_eq_readSum]
    apply readSum_of_bits _ 16 _ (16 + B.length * 8) (calculateChecksum_lt B)
    intro t ht
    rw [hbit_ne _ (by omega), hF, frameBits_bitAt_crc B t ht]
  unfold decodeSecondaryMessage
  rw [hTlen, hlenT, hmsg, hcrcT]
  rw [if_neg (by omega), if_neg (by omega), if_neg (by omega),
    if_pos (Ne.symm (calculateChecksum_set_ne B j b1 hb hb1lt hj hb1ne))]

theorem claim_C7_witness :
    (∀ x ∈ [65], x < 256) ∧ ([65] : List ℕ).length < 65536 ∧
      32 + 8 * ([65] : List ℕ).length ≤ 100 ∧ 16 ≤ 16 ∧
      16 < 16 + 8 * ([65] : List ℕ).length ∧
      (encodeSecondaryMessage [65] 100 = .ok (frameBits [65]) ∧
        decodeSecondaryMessage
            ((frameBits [65]).set 16 (!(bitAt (frameBits [65]) 16))) =
          .error .checksumMismatch) :=
  ⟨by decide, by decide, by decide, by decide, by decide,
    claim_C7 [65] 100 16 (by decide) (by decide) (by decide) (by decide)
      (by decide)⟩

/-! ## qr-analyzer.ts -/

/-- `isInFinderPattern` (the three 8/9-module corner windows). -/
def isInFinderPattern (x y size : ℕ) : Bool :=
  decide ((x < 9 ∧ y < 9) ∨ (size - 8 ≤ x ∧ y < 9) ∨ (x < 9 ∧ size - 8 ≤ y))

/-- `isInTimingPattern`. -/
def isInTimingPattern (x y : ℕ) : Bool :=
  decide (x = 6 ∨ y = 6)

/-- `ALIGNMENT_PATTERN_POSITIONS`: the source's table covers only
versions 2–7. -/
def ALIGNMENT_PATTERN_POSITIONS : List (ℕ × List ℕ) :=
  [(2, [6, 18]), (3, [6, 22]), (4, [6, 26]), (5, [6, 30]), (6, [6, 34]),
    (7, [6, 22, 38])]

def alignmentPositions (version : ℕ) : Option (List ℕ) :=
  (ALIGNMENT_PATTERN_POSITIONS.find? (fun p => p.1 == version)).map (fun p => p.2)

/-- `isInAlignmentPattern`: within Chebyshev distance 2 of a pair of
table coordinates, skipping the top-left finder quadrant. -/
def isInAlignmentPattern (x y version : ℕ) : Bool :=
  if version < 2 then false
  else
    match alignmentPositions version with
    | none => false
    | some positions =>
        positions.any (fun centerX => positions.any (fun centerY =>
          if centerX < 9 ∧ centerY < 9 then false
          else decide (Nat.dist x centerX ≤ 2 ∧ Nat.dist y centerY ≤ 2)))

/-- `isInFormatInfo`. -/
def isInFormatInfo (x y size : ℕ) : Bool :=
  decide ((y = 8 ∧ x ≤ 8) ∨ (x = 8 ∧ y ≤ 8) ∨ (y = 8 ∧ size - 8 ≤ x) ∨
    (x = 8 ∧ size - 7 ≤ y))

/-- `isInVersionInfo` (two 3×6 blocks, version 7+). -/
def isInVersionInfo (x y size version : ℕ) : Bool :=
  if version < 7 then false
  else decide ((x ≤ 5 ∧ size - 11 ≤ y ∧ y ≤ size - 9) ∨
    (y ≤ 5 ∧ size - 11 ≤ x ∧ x ≤ size - 9))

/-- `isFunctionPattern` from qr-analyzer.ts (it reads only `size` and
`version` from the matrix argument). -/
def isFunctionPattern (x y size version : ℕ) : Bool :=
  isInFinderPattern x y size || isInTimingPattern x y ||
    isInAlignmentPattern x y version || isInFormatInfo x y size ||
    isInVersionInfo x y size version

/-- `identifyFlippableModules`: row-major (`y` outer, `x` inner) sweep
keeping the non-function modules.  In both matrix conversions of the
source a module's `type` is `DATA_CODEWORD` exactly when
`isFunctionPattern` is false at its coordinates, so the emitted list
depends only on `(size, version)`; the source's per-entry `index` field
is never read and is omitted. -/
def identifyFlippableModules (size version : ℕ) : List (ℕ × ℕ) :=
  ((List.range size).map (fun y =>
    (List.range size).filterMap (fun x =>
      if isFunctionPattern x y size version then none else some (x, y)))).flatten

/-- `calculateMaxCapacity` from qr-analyzer.ts.  `ecLevel` is accepted
but unused, exactly as in the source; the two IEEE-double constants are
modelled as rationals. -/
def calculateMaxCapacity (flippableModules : List (ℕ × ℕ)) (_ecLevel : ℕ)
    (safetyMargin : ℚ) : ℕ :=
  Int.toNat (max 0 (Int.floor
    ((Int.floor ((flippableModules.length : ℚ) * safetyMargin) : ℚ) / (0.42 : ℚ))))

/-! ## QRStegoEncoder.ts -/

/-- Output of the external QR engine for a primary string (out of
scope per spec §1; both the encoder and the decoder's reference
regeneration receive the same deterministic value). -/
structure EngineQR where
  size : ℕ
  version : ℕ
  values : List (List Bool)
  deriving DecidableEq, Repr

/-- Well-formedness of an engine-produced QR (spec §3): square matrix
of side `17 + 4·version`, version 1–40. -/
def WellFormed (q : EngineQR) : Prop :=
  q.size = 17 + 4 * q.version ∧ 1 ≤ q.version ∧ q.version ≤ 40 ∧
    q.values.length = q.size ∧ ∀ row ∈ q.values, row.length = q.size

instance (q : EngineQR) : Decidable (WellFormed q) := by
  unfold WellFormed
  infer_instance

/-- The encoder's output matrix with its `flippedModuleCount`. -/
structure StegoQR where
  size : ℕ
  version : ℕ
  values : List (List Bool)
  flippedModuleCount : ℕ
  deriving DecidableEq, Repr

/-- Module read `matrix[y][x]` (all reads in scope are in range). -/
def valueAt (g : List (List Bool)) (x y : ℕ) : Bool :=
  (g.getD y []).getD x false

/-- In-place update `matrix[y][x] = v` on an immutable grid. -/
def setValue (g : List (List Bool)) (x y : ℕ) (v : Bool) : List (List Bool) :=
  g.set y ((g.getD y []).set x v)

/-- `Map.set` on the JS insertion-ordered map of `createFlipMap`. -/
def mapSet (m : List (ℕ × Bool)) (key : ℕ) (v : Bool) : List (ℕ × Bool) :=
  if m.any (fun p => p.1 == key) then
    m.map (fun p => if p.1 == key then (key, v) else p)
  else
    m ++ [(key, v)]

/-- `createFlipMap` from QRStegoEncoder.ts, after the distribution
indices have been generated. -/
def createFlipMap (secondaryBits : List Bool) (indices : List ℕ) :
    List (ℕ × Bool) :=
  (List.range secondaryBits.length).foldl
    (fun m i => mapSet m (indices.getD i 0) (secondaryBits.getD i false)) []

/-- `applyFlips` from QRStegoEncoder.ts: clone the matrix, toggle the
module behind every `true` entry of the flip map (re-checking
`isFunctionPattern` as an observability guard), and count the flips. -/
def applyFlips (base : EngineQR) (positions : List (ℕ × ℕ))
    (flipMap : List (ℕ × Bool)) : StegoQR :=
  let res := flipMap.foldl
    (fun (acc : List (List Bool) × ℕ) (e : ℕ × Bool) =>
      if e.2 = false then acc
      else
        if isFunctionPattern (positions.getD e.1 (0, 0)).1
            (positions.getD e.1 (0, 0)).2 base.size base.version then acc
        else
          (setValue acc.1 (positions.getD e.1 (0, 0)).1
              (positions.getD e.1 (0, 0)).2
              (!(valueAt acc.1 (positions.getD e.1 (0, 0)).1
                (positions.getD e.1 (0, 0)).2)),
            acc.2 + 1))
    (base.values, 0)
  ⟨base.size, base.version, res.1, res.2⟩

/-- `encode` from QRStegoEncoder.ts (steps 2–7; step 1, the engine
call, is the `base` argument).  Default options are `ecLevel = 3` and
`safetyMargin = 0.07`. -/
def encode (base : EngineQR) (secondaryBytes : List ℕ) (safetyMargin : ℚ) :
    Except StegoError StegoQR :=
  if (identifyFlippableModules base.size base.version).length = 0 then
    .error .matrixTooSmall
  else if calculateMaxCapacity (identifyFlippableModules base.size base.version)
      3 safetyMargin ≤ 0 then
    .error .insufficientCapacity
  else
    (if secondaryBytes.length > 0 then
        encodeSecondaryMessage secondaryBytes
          (calculateMaxCapacity (identifyFlippableModules base.size base.version)
            3 safetyMargin)
      else .ok []).bind (fun secondaryBits =>
      (generateDistributionPattern secondaryBits.length
          (identifyFlippableModules base.size base.version).length).map
        (fun indices =>
          applyFlips base (identifyFlippableModules base.size base.version)
            (createFlipMap secondaryBits indices)))

/-- `getCapacity` from QRStegoEncoder.ts: byte capacity after the
32-bit overhead (the `Math.max(0, ⌊(totalBits-32)/8⌋)` of the source is
exactly truncated subtraction followed by floor division). -/
def getCapacity (base : EngineQR) (safetyMargin : ℚ) : ℕ :=
  (calculateMaxCapacity (identifyFlippableModules base.size base.version)
    3 safetyMargin - 32) / 8

/-- `validateCapacity` from QRStegoEncoder.ts. -/
def validateCapacity (base : EngineQR) (secondaryBytes : List ℕ)
    (safetyMargin : ℚ) : Bool :=
  secondaryBytes.length ≤ getCapacity base safetyMargin

/-! ## QRStegoDecoder.ts (matrix mode) -/

/-- Decoded payload (primary string and emit-only metadata fields that
are constant are omitted). -/
structure StegoPayload where
  secondaryMessage : List ℕ
  flippedModuleCount : ℕ
  deriving DecidableEq, Repr

/-- `compareMatrices` from QRStegoDecoder.ts: indices of flippable
modules whose scanned value differs from the reference. -/
def compareMatrices (scanned reference : List (List Bool))
    (flippableModules : List (ℕ × ℕ)) : Except StegoError (List ℕ) :=
  if scanned.length ≠ reference.length then .error .sizeMismatch
  else .ok ((List.range flippableModules.length).filter (fun i =>
    valueAt scanned (flippableModules.getD i (0, 0)).1
        (flippableModules.getD i (0, 0)).2
      ≠ valueAt reference (flippableModules.getD i (0, 0)).1
        (flippableModules.getD i (0, 0)).2))

/-- The stepping loop of `extractBitsFromFlips`:
`bits.push(flipPositions.has(current % total)); current = (current + step) % total`. -/
def stepRead (flipPositions : List ℕ) (total step : ℕ) : ℕ → ℕ → List Bool
  | _, 0 => []
  | current, n + 1 =>
      decide ((current % total) ∈ flipPositions) ::
        stepRead flipPositions total step ((current + step) % total) n

/-- `extractBitsFromFlips` from QRStegoDecoder.ts: read 16 step-indexed
bits as the length, then re-extract `16 + 8·L + 16` bits from the
start. -/
def extractBitsFromFlips (flipPositions : List ℕ)
    (flippableModules : List (ℕ × ℕ)) : List Bool :=
  stepRead flipPositions flippableModules.length
    (findLargePrime flippableModules.length) 0
    (16 + (readBE (stepRead flipPositions flippableModules.length
      (findLargePrime flippableModules.length) 0 16) 0 16) * 8 + 16)

/-- `decodeFromMatrix` from QRStegoDecoder.ts (step 1, regenerating the
reference from the primary, is the external engine: its deterministic
output is the `reference` argument). -/
def decodeFromMatrix (reference : EngineQR) (scannedMatrix : List (List Bool)) :
    Except StegoError StegoPayload :=
  (compareMatrices scannedMatrix reference.values
      (identifyFlippableModules reference.size reference.version)).bind
    (fun flips =>
      if flips.length = 0 then .ok ⟨[], 0⟩
      else
        (decodeSecondaryMessage (extractBitsFromFlips flips
            (identifyFlippableModules reference.size reference.version))).map
          (fun msg => ⟨msg, flips.length⟩))

instance {ε α : Type} [DecidableEq ε] [DecidableEq α] :
    DecidableEq (Except ε α) := fun a b =>
  match a, b with
  | .error e1, .error e2 =>
      if h : e1 = e2 then .isTrue (by rw [h])
      else .isFalse (by intro hc; cases hc; exact h rfl)
  | .error _, .ok _ => .isFalse (by intro hc; cases hc)
  | .ok _, .error _ => .isFalse (by intro hc; cases hc)
  | .ok a1, .ok a2 =>
      if h : a1 = a2 then .isTrue (by rw [h])
      else .isFalse (by intro hc; cases hc; exact h rfl)

/-- Concrete engine outputs used as test vectors (module values for an
all-light matrix; the codec never constrains the engine's values). -/
def baseQR1 : EngineQR :=
  ⟨21, 1, List.replicate 21 (List.replicate 21 false)⟩

def baseQR2 : EngineQR :=
  ⟨25, 2, List.replicate 25 (List.replicate 25 false)⟩

/-! ### Error classification of the frame and distribution steps -/

theorem encodeSecondaryMessage_error (B : List ℕ) (mb : ℕ) (e : StegoError)
    (h : encodeSecondaryMessage B mb = .error e) : e = .payloadTooLarge := by
  unfold encodeSecondaryMessage at h
  by_cases hc : 32 + B.length * 8 > mb
  · rw [if_pos hc] at h
    exact (Except.error.inj h).symm
  · rw [if_neg hc] at h
    cases h

theorem generateDistributionPattern_error (a b : ℕ) (e : StegoError)
    (h : generateDistributionPattern a b = .error e) : e = .capacityExceeded := by
  unfold generateDistributionPattern at h
  by_cases hc : a > b
  · rw [if_pos hc] at h
    exact (Except.error.inj h).symm
  · rw [if_neg hc] at h
    cases h

/-! ### Claim C4 -/

/-- C4 as stated is refuted: with `safetyMargin = 1/200` on a
version-1 matrix the computed capacity is `M = 2 ≤ 32`, yet the
encoder does not raise `InsufficientCapacity` — it proceeds and raises
`PayloadTooLarge` instead (its guard tests `M ≤ 0`, not `M ≤ 32`). -/
theorem claim_C4_counterexample :
    calculateMaxCapacity (identifyFlippableModules 21 1) 3 (1 / 200) = 2 ∧
      (0 : ℕ) < 2 ∧ (2 : ℕ) ≤ 32 ∧
      encode baseQR1 [120] (1 / 200) = .error .payloadTooLarge := by
  have hlen : (identifyFlippableModules 21 1).length = 208 := by decide
  have hM : calculateMaxCapacity (identifyFlippableModules 21 1) 3 (1 / 200) = 2 := by
    unfold calculateMaxCapacity
    rw [hlen]
    norm_num
    rfl
  refine ⟨hM, by norm_num, by norm_num, ?_⟩
  unfold encode
  rw [show calculateMaxCapacity
      (identifyFlippableModules baseQR1.size baseQR1.version) 3 (1 / 200) = 2
    from hM]
  decide

/-- C4, amended: for every base matrix with at least one flippable
module, every secondary and every margin, the encoder fails with
`InsufficientCapacity` exactly when the computed bit capacity `M` is 0
(the code's guard is `M ≤ 0`, and `M` is a nonnegative integer). -/
theorem claim_C4 (base : EngineQR) (B : List ℕ) (margin : ℚ)
    (hF : (identifyFlippableModules base.size base.version).length ≠ 0) :
    (encode base B margin = .error .insufficientCapacity ↔
      calculateMaxCapacity (identifyFlippableModules base.size base.version)
        3 margin = 0) := by
  unfold encode
  rw [if_neg hF]
  by_cases hM : calculateMaxCapacity (identifyFlippableModules base.size base.version)
      3 margin ≤ 0
  · rw [if_pos hM]
    constructor
    · intro _; omega
    · intro _; rfl
  · rw [if_neg hM]
    constructor
    · intro he
      exfalso
      cases hE : (if B.length > 0 then
          encodeSecondaryMessage B
            (calculateMaxCapacity (identifyFlippableModules base.size base.version)
              3 margin)
        else .ok []) with
      | error e =>
        have hPTL : e = .payloadTooLarge := by
          by_cases hBl : B.length > 0
          · rw [if_pos hBl] at hE
            exact encodeSecondaryMessage_error _ _ _ hE
          · rw [if_neg hBl] at hE
            cases hE
        rw [hE] at he
        have : StegoError.payloadTooLarge = StegoError.insufficientCapacity := by
          rw [← hPTL]
          exact Except.error.inj he
        cases this
      | ok bits =>
        rw [hE] at he
        cases hG : generateDistributionPattern bits.length
            (identifyFlippableModules base.size base.version).length with
        | error e =>
          have hCE : e = .capacityExceeded := generateDistributionPattern_error _ _ _ hG
          rw [show ((Except.ok bits : Except StegoError (List Bool)).bind
              (fun secondaryBits =>
                (generateDistributionPattern secondaryBits.length
                    (identifyFlippableModules base.size base.version).length).map
                  (fun indices =>
                    applyFlips base (identifyFlippableModules base.size base.version)
                      (createFlipMap secondaryBits indices))))
            = (generateDistributionPattern bits.length
                (identifyFlippableModules base.size base.version).length).map
                  (fun indices =>
                    applyFlips base (identifyFlippableModules base.size base.version)
                      (createFlipMap bits indices)) from rfl, hG] at he
          have : StegoError.capacityExceeded = StegoError.insufficientCapacity := by
            rw [← hCE]
            exact Except.error.inj he
          cases this
        | ok idx =>
          rw [show ((Except.ok bits : Except StegoError (List Bool)).bind
              (fun secondaryBits =>
                (generateDistributionPattern secondaryBits.length
                    (identifyFlippableModules base.size base.version).length).map
                  (fun indices =>
                    applyFlips base (identifyFlippableModules base.size base.version)
                      (createFlipMap secondaryBits indices))))
            = (generateDistributionPattern bits.length
                (identifyFlippableModules base.size base.version).length).map
                  (fun indices =>
                    applyFlips base (identifyFlippableModules base.size base.version)
                      (createFlipMap bits indices)) from rfl, hG] at he
          cases he
    · intro h
      omega

theorem claim_C4_witness :
    (identifyFlippableModules baseQR1.size baseQR1.version).length ≠ 0 ∧
      (encode baseQR1 [] 0 = .error .insufficientCapacity ↔
        calculateMaxCapacity
          (identifyFlippableModules baseQR1.size baseQR1.version) 3 0 = 0) :=
  ⟨by decide, claim_C4 baseQR1 [] 0 (by decide)⟩

/-! ### Structural facts about the analyzer -/

/-- Every alignment center in the (partial) table is 6 or at least 18:
no center is within Chebyshev distance 2 of row 9. -/
theorem alignmentPositions_far (v : ℕ) (ps : List ℕ)
    (h : alignmentPositions v = some ps) : ∀ c ∈ ps, c = 6 ∨ 18 ≤ c := by
  unfold alignmentPositions at h
  cases hf : ALIGNMENT_PATTERN_POSITIONS.find? (fun p => p.1 == v) with
  | none => rw [hf] at h; cases h
  | some pair =>
    rw [hf] at h
    have hps : pair.2 = ps := by
      simpa using h
    have hmem := List.mem_of_find?_eq_some hf
    rw [← hps]
    simp only [ALIGNMENT_PATTERN_POSITIONS, List.mem_cons,
      List.mem_singleton] at hmem
    rcases hmem with rfl | rfl | rfl | rfl | rfl | rfl | h0
    · decide
    · decide
    · decide
    · decide
    · decide
    · decide
    · exact absurd h0 (List.not_mem_nil _)

theorem isInAlignmentPattern_row9 (x v : ℕ) :
    isInAlignmentPattern x 9 v = false := by
  unfold isInAlignmentPattern
  by_cases h2 : v < 2
  · rw [if_pos h2]
  · rw [if_neg h2]
    cases hap : alignmentPositions v with
    | none => rfl
    | some ps =>
      apply List.any_eq_false.mpr
      intro cx _
      intro hin
      rw [List.any_eq_true] at hin
      obtain ⟨cy, hcy, hg⟩ := hin
      by_cases hskip : cx < 9 ∧ cy < 9
      · rw [if_pos hskip] at hg
        cases hg
      · rw [if_neg hskip] at hg
        have hd := of_decide_eq_true hg
        have hfar := alignmentPositions_far v ps hap cy hcy
        have hdist : Nat.dist 9 cy = 9 - cy + (cy - 9) := rfl
        omega

/-- On row `y = 9` of a matrix of side ≥ 21, the only function-pattern
column is the timing column `x = 6`. -/
theorem isFunctionPattern_row9 (x size version : ℕ) (hsz : 21 ≤ size) :
    isFunctionPattern x 9 size version = decide (x = 6) := by
  unfold isFunctionPattern isInFinderPattern isInTimingPattern isInFormatInfo
    isInVersionInfo
  rw [isInAlignmentPattern_row9]
  have hfinder : decide ((x < 9 ∧ 9 < 9) ∨ (size - 8 ≤ x ∧ 9 < 9) ∨
      (x < 9 ∧ size - 8 ≤ 9)) = false := decide_eq_false (by omega)
  have hformat : decide ((9 = 8 ∧ x ≤ 8) ∨ (x = 8 ∧ 9 ≤ 8) ∨
      (9 = 8 ∧ size - 8 ≤ x) ∨ (x = 8 ∧ size - 7 ≤ 9)) = false :=
    decide_eq_false (by omega)
  have hversion : (if version < 7 then false
      else decide ((x ≤ 5 ∧ size - 11 ≤ 9 ∧ 9 ≤ size - 9) ∨
        (9 ≤ 5 ∧ size - 11 ≤ x ∧ x ≤ size - 9))) = false := by
    by_cases h7 : version < 7
    · rw [if_pos h7]
    · rw [if_neg h7]
      exact decide_eq_false (by omega)
  have htiming : decide (x = 6 ∨ 9 = 6) = decide (x = 6) := by
    by_cases hx : x = 6 <;> simp [hx]
  rw [hfinder, hformat, hversion, htiming]
  simp

theorem filterMap_if_length {α : Type} (l : List ℕ) (p : ℕ → Bool)
    (g : ℕ → α) :
    (l.filterMap (fun x => if p x then none else some (g x))).length
      = (l.filter (fun x => !(p x))).length := by
  induction l with
  | nil => rfl
  | cons a l ih =>
    by_cases hp : p a <;>
      simp [List.filterMap_cons, List.filter_cons, hp, ih]

/-- Row 9 alone contributes `size - 1` flippable modules, so flippable
modules always exist for well-formed sizes. -/
theorem identifyFlippableModules_length_ge (size version : ℕ)
    (hsz : 21 ≤ size) :
    size - 1 ≤ (identifyFlippableModules size version).length := by
  unfold identifyFlippableModules
  rw [List.length_flatten]
  have hrow : ((List.range size).filterMap (fun x =>
      if isFunctionPattern x 9 size version then none
      else some (x, 9))).length = size - 1 := by
    rw [filterMap_if_length]
    have hcongr : ∀ a ∈ List.range size,
        (!(isFunctionPattern a 9 size version)) = (a != 6) := by
      intro a _
      rw [isFunctionPattern_row9 a size version hsz]
      by_cases hx : a = 6 <;> simp [hx]
    rw [List.filter_congr hcongr,
      ← List.Nodup.erase_eq_filter (List.nodup_range size) 6,
      List.length_erase_of_mem (List.mem_range.mpr (by omega)),
      List.length_range]
  have hmem : ((List.range size).filterMap (fun x =>
        if isFunctionPattern x 9 size version then none
        else some (x, 9))).length
      ∈ (((List.range size).map (fun y => (List.range size).filterMap (fun x =>
          if isFunctionPattern x y size version then none
          else some (x, y)))).map List.length) := by
    rw [List.map_map]
    exact List.mem_map_of_mem _ (List.mem_range.mpr (by omega))
  have := List.le_sum_of_mem hmem
  omega

theorem identifyFlippableModules_length_le (size version : ℕ) :
    (identifyFlippableModules size version).length ≤ size * size := by
  unfold identifyFlippableModules
  rw [List.length_flatten]
  have hbound := List.sum_le_card_nsmul
    (((List.range size).map (fun y => (List.range size).filterMap (fun x =>
      if isFunctionPattern x y size version then none
      else some (x, y)))).map List.length) size (by
        intro n hn
        rw [List.map_map] at hn
        obtain ⟨y, _, rfl⟩ := List.mem_map.mp hn
        calc ((List.range size).filterMap _).length
            ≤ (List.range size).length := List.length_filterMap_le _ _
          _ = size := List.length_range size)
  simp only [List.length_map, List.length_range, smul_eq_mul] at hbound
  exact hbound

/-- At the default safety margin 0.07, any matrix with at least 15
flippable modules gets a strictly positive bit capacity. -/
theorem calculateMaxCapacity_pos (F : List (ℕ × ℕ)) (ec : ℕ)
    (h : 15 ≤ F.length) : 1 ≤ calculateMaxCapacity F ec (7 / 100) := by
  unfold calculateMaxCapacity
  have h15 : (15 : ℚ) ≤ (F.length : ℚ) := by exact_mod_cast h
  have h1 : (1 : ℤ) ≤ Int.floor ((F.length : ℚ) * (7 / 100)) := by
    rw [Int.le_floor]
    push_cast
    linarith
  have h2 : (1 : ℤ) ≤ Int.floor
      ((Int.floor ((F.length : ℚ) * (7 / 100)) : ℚ) / (0.42 : ℚ)) := by
    rw [Int.le_floor]
    have hy : (1 : ℚ) ≤ (Int.floor ((F.length : ℚ) * (7 / 100)) : ℚ) := by
      exact_mod_cast h1
    rw [show ((1 : ℤ) : ℚ) = 1 from rfl, one_le_div (by norm_num : (0:ℚ) < 0.42)]
    linarith
  exact Int.toNat_le_toNat (le_max_of_le_right h2)

theorem except_bind_ok {ε α β : Type} (a : α) (f : α → Except ε β) :
    (Except.ok a : Except ε α).bind f = f a := rfl

theorem except_bind_error {ε α β : Type} (e : ε) (f : α → Except ε β) :
    (Except.error e : Except ε α).bind f = .error e := rfl

theorem except_map_ok {ε α β : Type} (a : α) (f : α → β) :
    (Except.ok a : Except ε α).map f = .ok (f a) := rfl

theorem except_map_error {ε α β : Type} (e : ε) (f : α → β) :
    (Except.error e : Except ε α).map f = .error e := rfl

/-! ### Claim C5 -/

/-- C5: at the default safety margin, for every well-formed base matrix
and secondary byte list, `validateCapacity = true` means `encode` does
not raise `PayloadTooLarge`, and `validateCapacity = false` means it
does. -/
theorem claim_C5 (base : EngineQR) (B : List ℕ) (hwf : WellFormed base) :
    (validateCapacity base B (7 / 100) = true →
      encode base B (7 / 100) ≠ .error .payloadTooLarge) ∧
    (validateCapacity base B (7 / 100) = false →
      encode base B (7 / 100) = .error .payloadTooLarge) := by
  obtain ⟨hs, hv1, hv40, _, _⟩ := hwf
  have hsz : 21 ≤ base.size := by omega
  have hFge : base.size - 1 ≤
      (identifyFlippableModules base.size base.version).length :=
    identifyFlippableModules_length_ge base.size base.version hsz
  have hF : (identifyFlippableModules base.size base.version).length ≠ 0 := by
    omega
  have hM1 : 1 ≤ calculateMaxCapacity
      (identifyFlippableModules base.size base.version) 3 (7 / 100) :=
    calculateMaxCapacity_pos _ 3 (by omega)
  constructor
  · intro hv
    have hvle : B.length ≤ (calculateMaxCapacity
        (identifyFlippableModules base.size base.version) 3 (7 / 100) - 32) / 8 := by
      unfold validateCapacity getCapacity at hv
      exact of_decide_eq_true hv
    unfold encode
    rw [if_neg hF, if_neg (by omega : ¬ calculateMaxCapacity
      (identifyFlippableModules base.size base.version) 3 (7 / 100) ≤ 0)]
    by_cases hBl : B.length > 0
    · rw [if_pos hBl]
      unfold encodeSecondaryMessage
      rw [if_neg (by omega : ¬ 32 + B.length * 8 > calculateMaxCapacity
        (identifyFlippableModules base.size base.version) 3 (7 / 100))]
      rw [except_bind_ok]
      cases hG : generateDistributionPattern (frameBits B).length
          (identifyFlippableModules base.size base.version).length with
      | error e =>
        rw [except_map_error]
        intro hc
        have hCE := generateDistributionPattern_error _ _ _ hG
        have : e = .payloadTooLarge := Except.error.inj hc
        rw [hCE] at this
        cases this
      | ok idx =>
        rw [except_map_ok]
        intro hc
        cases hc
    · rw [if_neg hBl]
      rw [except_bind_ok]
      cases hG : generateDistributionPattern (List.length ([] : List Bool))
          (identifyFlippableModules base.size base.version).length with
      | error e =>
        rw [except_map_error]
        intro hc
        have hCE := generateDistributionPattern_error _ _ _ hG
        have : e = .payloadTooLarge := Except.error.inj hc
        rw [hCE] at this
        cases this
      | ok idx =>
        rw [except_map_ok]
        intro hc
        cases hc
  · intro hv
    have hvgt : ¬ (B.length ≤ (calculateMaxCapacity
        (identifyFlippableModules base.size base.version) 3 (7 / 100) - 32) / 8) := by
      unfold validateCapacity getCapacity at hv
      exact of_decide_eq_false hv
    have hBl : B.length > 0 := by omega
    unfold encode
    rw [if_neg hF, if_neg (by omega : ¬ calculateMaxCapacity
      (identifyFlippableModules base.size base.version) 3 (7 / 100) ≤ 0)]
    rw [if_pos hBl]
    unfold encodeSecondaryMessage
    rw [if_pos (by omega : 32 + B.length * 8 > calculateMaxCapacity
      (identifyFlippableModules base.size base.version) 3 (7 / 100))]
    rw [except_bind_error]

theorem claim_C5_witness :
    WellFormed baseQR1 ∧
      ((validateCapacity baseQR1 [120] (7 / 100) = true →
        encode baseQR1 [120] (7 / 100) ≠ .error .payloadTooLarge) ∧
      (validateCapacity baseQR1 [120] (7 / 100) = false →
        encode baseQR1 [120] (7 / 100) = .error .payloadTooLarge)) :=
  ⟨by decide, claim_C5 baseQR1 [120] (by decide)⟩

/-! ### Claim C10 -/

/-- With an empty secondary, once the two capacity guards pass, the
encoder returns the base matrix unchanged with flip count 0. -/
theorem encode_empty (base : EngineQR) (margin : ℚ)
    (hF : (identifyFlippableModules base.size base.version).length ≠ 0)
    (hM : ¬ calculateMaxCapacity (identifyFlippableModules base.size base.version)
      3 margin ≤ 0) :
    encode base [] margin = .ok ⟨base.size, base.version, base.values, 0⟩ := by
  unfold encode
  rw [if_neg hF, if_neg hM,
    if_neg (by decide : ¬ (List.length ([] : List ℕ) > 0)), except_bind_ok]
  unfold generateDistributionPattern
  rw [if_neg (show ¬ (List.length ([] : List Bool) >
      (identifyFlippableModules base.size base.version).length) from
    fun hc => Nat.not_lt_zero _ hc), except_map_ok]
  rfl

/-- Decoding a scan identical to the reference yields the empty payload
with flip count 0. -/
theorem decode_same (base : EngineQR) :
    decodeFromMatrix base base.values = .ok ⟨[], 0⟩ := by
  unfold decodeFromMatrix compareMatrices
  rw [if_neg (fun hc => hc rfl), except_bind_ok]
  have hfil : (List.range (identifyFlippableModules base.size
        base.version).length).filter (fun i =>
      valueAt base.values ((identifyFlippableModules base.size
          base.version).getD i (0, 0)).1
        ((identifyFlippableModules base.size base.version).getD i (0, 0)).2
      ≠ valueAt base.values ((identifyFlippableModules base.size
          base.version).getD i (0, 0)).1
        ((identifyFlippableModules base.size base.version).getD i (0, 0)).2)
      = [] := by
    apply List.filter_eq_nil_iff.mpr
    intro i _
    simp
  rw [hfil]
  rfl

/-- C10: whenever encoding the empty secondary succeeds, the output
matrix equals the base matrix, the flip count is 0, and decoding it
yields the empty secondary with flip count 0. -/
theorem claim_C10 (base : EngineQR) (margin : ℚ) (m : StegoQR)
    (he : encode base [] margin = .ok m) :
    m.values = base.values ∧ m.flippedModuleCount = 0 ∧
      decodeFromMatrix base m.values = .ok ⟨[], 0⟩ := by
  unfold encode at he
  by_cases hF : (identifyFlippableModules base.size base.version).length = 0
  · rw [if_pos hF] at he
    cases he
  · rw [if_neg hF] at he
    by_cases hM : calculateMaxCapacity
        (identifyFlippableModules base.size base.version) 3 margin ≤ 0
    · rw [if_pos hM] at he
      cases he
    · rw [if_neg hM,
        if_neg (by decide : ¬ (List.length ([] : List ℕ) > 0)),
        except_bind_ok] at he
      unfold generateDistributionPattern at he
      rw [if_neg (show ¬ (List.length ([] : List Bool) >
          (identifyFlippableModules base.size base.version).length) from
        fun hc => Nat.not_lt_zero _ hc), except_map_ok] at he
      have hm : m = ⟨base.size, base.version, base.values, 0⟩ :=
        (Except.ok.inj he).symm
      rw [hm]
      exact ⟨rfl, rfl, decode_same base⟩

theorem claim_C10_witness :
    encode baseQR2 [] (7 / 100) = .ok ⟨25, 2, baseQR2.values, 0⟩ ∧
      ((⟨25, 2, baseQR2.values, 0⟩ : StegoQR).values = baseQR2.values ∧
        (⟨25, 2, baseQR2.values, 0⟩ : StegoQR).flippedModuleCount = 0 ∧
        decodeFromMatrix baseQR2 (⟨25, 2, baseQR2.values, 0⟩ : StegoQR).values
          = .ok ⟨[], 0⟩) := by
  have hlen : (identifyFlippableModules baseQR2.size baseQR2.version).length
      = 351 := by decide
  have hM : calculateMaxCapacity
      (identifyFlippableModules baseQR2.size baseQR2.version) 3 (7 / 100)
      = 57 := by
    unfold calculateMaxCapacity
    rw [hlen]
    norm_num
    rfl
  have henc : encode baseQR2 [] (7 / 100) = .ok ⟨25, 2, baseQR2.values, 0⟩ :=
    encode_empty baseQR2 (7 / 100) (by omega) (by omega)
  exact ⟨henc, claim_C10 baseQR2 (7 / 100) _ henc⟩

/-! ### Claim C3 -/

theorem stepRead_length (fp : List ℕ) (t s : ℕ) :
    ∀ n c, (stepRead fp t s c n).length = n := by
  intro n
  induction n with
  | zero => intro c; rfl
  | succ n ih =>
    intro c
    rw [stepRead, List.length_cons, ih]

/-- Reads of a common in-range position agree between two extraction
runs of different lengths from the same start. -/
theorem stepRead_getD (fp : List ℕ) (t s : ℕ) :
    ∀ i n m c, i < n → i < m →
      (stepRead fp t s c n).getD i false = (stepRead fp t s c m).getD i false := by
  intro i
  induction i with
  | zero =>
    intro n m c hn hm
    cases n with
    | zero => omega
    | succ n =>
      cases m with
      | zero => omega
      | succ m => rw [stepRead, stepRead, List.getD_cons_zero, List.getD_cons_zero]
  | succ i ih =>
    intro n m c hn hm
    cases n with
    | zero => omega
    | succ n =>
      cases m with
      | zero => omega
      | succ m =>
        rw [stepRead, stepRead, List.getD_cons_succ, List.getD_cons_succ]
        exact ih n m ((c + s) % t) (by omega) (by omega)

/-- `readSum` only looks at the bits in `[off, off + w)`. -/
theorem readSum_congr (b1 b2 : List Bool) :
    ∀ w off, (∀ k, k < w → bitAt b1 (off + k) = bitAt b2 (off + k)) →
      readSum b1 off w = readSum b2 off w := by
  intro w
  induction w with
  | zero => intro off _; rw [readSum, readSum]
  | succ w ih =>
    intro off h
    rw [readSum, readSum]
    have h0 : bitAt b1 off = bitAt b2 off := by
      have := h 0 (by omega)
      rwa [Nat.add_zero] at this
    rw [h0, ih (off + 1) (fun k hk => by
      have := h (k + 1) (by omega)
      rwa [show off + (k + 1) = off + 1 + k by omega] at this)]

theorem compareMatrices_error (s r : List (List Bool)) (F : List (ℕ × ℕ))
    (e : StegoError) (h : compareMatrices s r F = .error e) : e = .sizeMismatch := by
  unfold compareMatrices at h
  by_cases hc : s.length ≠ r.length
  · rw [if_pos hc] at h
    exact (Except.error.inj h).symm
  · rw [if_neg hc] at h
    cases h

/-- The re-extraction pass always returns exactly `16 + 8L + 16` bits
for the length `L` it just read, so the decoder's `BadLength` branch
can never fire on extracted bits. -/
theorem decode_extract_ne_badLength (fp : List ℕ) (F : List (ℕ × ℕ)) :
    decodeSecondaryMessage (extractBitsFromFlips fp F) ≠ .error .badLength := by
  unfold extractBitsFromFlips
  intro hc
  have hlen : (stepRead fp F.length (findLargePrime F.length) 0
      (16 + (readBE (stepRead fp F.length (findLargePrime F.length) 0 16) 0 16)
        * 8 + 16)).length
      = 16 + (readBE (stepRead fp F.length (findLargePrime F.length) 0 16) 0 16)
        * 8 + 16 := stepRead_length _ _ _ _ _
  have hfl : frameLen (stepRead fp F.length (findLargePrime F.length) 0
      (16 + (readBE (stepRead fp F.length (findLargePrime F.length) 0 16) 0 16)
        * 8 + 16))
      = readBE (stepRead fp F.length (findLargePrime F.length) 0 16) 0 16 := by
    unfold frameLen
    rw [readBE_eq_readSum, readBE_eq_readSum]
    apply readSum_congr
    intro k hk
    unfold bitAt
    rw [Nat.zero_add]
    exact stepRead_getD fp F.length (findLargePrime F.length) k _ 16 0
      (by omega) hk
  unfold decodeSecondaryMessage at hc
  rw [if_neg (by rw [hlen]; omega)] at hc
  rw [if_neg (by rw [hfl, hlen]; omega)] at hc
  by_cases h0 : frameLen (stepRead fp F.length (findLargePrime F.length) 0
      (16 + (readBE (stepRead fp F.length (findLargePrime F.length) 0 16) 0 16)
        * 8 + 16)) = 0
  · rw [if_pos h0] at hc
    cases hc
  · rw [if_neg h0] at hc
    by_cases hcs : readBE (stepRead fp F.length (findLargePrime F.length) 0
        (16 + (readBE (stepRead fp F.length (findLargePrime F.length) 0 16) 0 16)
          * 8 + 16))
        (16 + frameLen (stepRead fp F.length (findLargePrime F.length) 0
          (16 + (readBE (stepRead fp F.length (findLargePrime F.length) 0 16)
            0 16) * 8 + 16)) * 8) 16
        ≠ calculateChecksum (frameMessageBytes
          (stepRead fp F.length (findLargePrime F.length) 0
            (16 + (readBE (stepRead fp F.length (findLargePrime F.length) 0 16)
              0 16) * 8 + 16)))
    · rw [if_pos hcs] at hc
      cases Except.error.inj hc
    · rw [if_neg hcs] at hc
      cases hc

/-- C3 as stated is refuted: the matrix decoder can never fail with
`BadLength`.  The extraction pass reads exactly `16 + 8L + 16` bits for
the length `L` it read first, so the guard `L > (|bits| - 32) / 8` is
always false, and `maxMessageSize` is not consulted at all in matrix
mode. -/
theorem claim_C3 (r : EngineQR) (s : List (List Bool)) :
    decodeFromMatrix r s ≠ .error .badLength := by
  unfold decodeFromMatrix
  intro hc
  cases hcm : compareMatrices s r.values
      (identifyFlippableModules r.size r.version) with
  | error e =>
    rw [hcm, except_bind_error] at hc
    have := compareMatrices_error _ _ _ _ hcm
    rw [this] at hc
    cases Except.error.inj hc
  | ok flips =>
    rw [hcm, except_bind_ok] at hc
    by_cases h0 : flips.length = 0
    · rw [if_pos h0] at hc
      cases hc
    · rw [if_neg h0] at hc
      cases hdec : decodeSecondaryMessage (extractBitsFromFlips flips
          (identifyFlippableModules r.size r.version)) with
      | error e =>
        rw [hdec, except_map_error] at hc
        have he : e = .badLength := Except.error.inj hc
        rw [he] at hdec
        exact decode_extract_ne_badLength flips
          (identifyFlippableModules r.size r.version) hdec
      | ok msg =>
        rw [hdec, except_map_ok] at hc
        cases hc

/-- Concrete run refuting C3's trigger condition: two flipped modules
on a version-1 matrix give `L = 24`, so `32 + 8L = 224` exceeds
`|F| = 208`, yet decoding fails with `ChecksumMismatch`, not
`BadLength`. -/
theorem claim_C3_counterexample :
    compareMatrices (setValue (setValue baseQR1.values 9 12 true) 18 12 true)
        baseQR1.values (identifyFlippableModules baseQR1.size baseQR1.version)
      = .ok [100, 109] ∧
    readBE (stepRead [100, 109]
        (identifyFlippableModules baseQR1.size baseQR1.version).length
        (findLargePrime
          (identifyFlippableModules baseQR1.size baseQR1.version).length)
        0 16) 0 16 = 24 ∧
    32 + 8 * 24 > (identifyFlippableModules baseQR1.size baseQR1.version).length ∧
    decodeFromMatrix baseQR1
        (setValue (setValue baseQR1.values 9 12 true) 18 12 true)
      = .error .checksumMismatch := by
  refine ⟨by decide, by decide, by decide, by decide⟩

/-! ### Claim C1: matrix update lemmas -/

theorem setValue_length (g : List (List Bool)) (x y : ℕ) (v : Bool) :
    (setValue g x y v).length = g.length := by
  unfold setValue
  rw [List.length_set]

theorem setValue_rows (g : List (List Bool)) (x y : ℕ) (v : Bool) (s : ℕ)
    (hrows : ∀ row ∈ g, row.length = s) :
    ∀ row ∈ setValue g x y v, row.length = s := by
  intro row hrow
  unfold setValue at hrow
  by_cases hy : y < g.length
  · cases List.mem_or_eq_of_mem_set hrow with
    | inl h => exact hrows row h
    | inr h =>
      rw [h, List.length_set]
      exact hrows _ (List.getD_eq_getElem g [] hy ▸ List.getElem_mem hy)
  · rw [List.set_eq_of_length_le (by omega)] at hrow
    exact hrows row hrow

theorem valueAt_setValue_self (g : List (List Bool)) (x y : ℕ) (v : Bool)
    (hy : y < g.length) (hx : x < (g.getD y []).length) :
    valueAt (setValue g x y v) x y = v := by
  unfold valueAt setValue
  simp only [List.getD_eq_getElem?_getD]
  rw [List.getElem?_set_self hy, Option.getD_some,
    List.getElem?_set_self (by rwa [List.getD_eq_getElem?_getD] at hx),
    Option.getD_some]

theorem valueAt_setValue_ne (g : List (List Bool)) (x y : ℕ) (v : Bool)
    (x' y' : ℕ) (h : ¬ (x' = x ∧ y' = y)) :
    valueAt (setValue g x y v) x' y' = valueAt g x' y' := by
  unfold valueAt setValue
  by_cases hy : y' = y
  · have hx : x' ≠ x := fun hc => h ⟨hc, hy⟩
    subst hy
    by_cases hyl : y' < g.length
    · simp only [List.getD_eq_getElem?_getD]
      rw [List.getElem?_set_self hyl, Option.getD_some,
        List.getElem?_set_ne (fun hc => hx hc.symm)]
    · rw [List.set_eq_of_length_le (by omega)]
  · simp only [List.getD_eq_getElem?_getD]
    rw [List.getElem?_set_ne (fun hc => hy hc.symm)]

/-! ### Structure of the flippable-module list -/

theorem flippable_mem (size version : ℕ) (q : ℕ × ℕ) :
    q ∈ identifyFlippableModules size version ↔
      q.1 < size ∧ q.2 < size ∧
        isFunctionPattern q.1 q.2 size version = false := by
  unfold identifyFlippableModules
  rw [List.mem_flatten]
  constructor
  · rintro ⟨l, hl, hq⟩
    rw [List.mem_map] at hl
    obtain ⟨y, hy, rfl⟩ := hl
    rw [List.mem_filterMap] at hq
    obtain ⟨x, hx, hfx⟩ := hq
    by_cases hp : isFunctionPattern x y size version
    · rw [if_pos hp] at hfx
      cases hfx
    · rw [if_neg hp] at hfx
      have hxy := Option.some.inj hfx
      rw [← hxy]
      exact ⟨List.mem_range.mp hx, List.mem_range.mp hy, Bool.eq_false_iff.mpr hp⟩
  · rintro ⟨hx, hy, hnf⟩
    refine ⟨(List.range size).filterMap (fun x =>
        if isFunctionPattern x q.2 size version then none else some (x, q.2)),
      List.mem_map_of_mem _ (List.mem_range.mpr hy), ?_⟩
    rw [List.mem_filterMap]
    exact ⟨q.1, List.mem_range.mpr hx, by rw [if_neg (by rw [hnf]; exact
      Bool.false_ne_true)]⟩

theorem flippable_row_snd (size version y : ℕ) (q : ℕ × ℕ)
    (h : q ∈ (List.range size).filterMap (fun x =>
      if isFunctionPattern x y size version then none else some (x, y))) :
    q.2 = y := by
  rw [List.mem_filterMap] at h
  obtain ⟨x, _, hfx⟩ := h
  by_cases hp : isFunctionPattern x y size version
  · rw [if_pos hp] at hfx
    cases hfx
  · rw [if_neg hp] at hfx
    rw [← Option.some.inj hfx]

theorem flippable_nodup (size version : ℕ) :
    (identifyFlippableModules size version).Nodup := by
  unfold identifyFlippableModules
  rw [List.nodup_flatten]
  constructor
  · intro l hl
    rw [List.mem_map] at hl
    obtain ⟨y, _, rfl⟩ := hl
    apply List.Nodup.filterMap _ (List.nodup_range size)
    intro a a' b hb hb'
    by_cases hp : isFunctionPattern a y size version
    · rw [if_pos hp] at hb
      cases hb
    · rw [if_neg hp] at hb
      by_cases hp' : isFunctionPattern a' y size version
      · rw [if_pos hp'] at hb'
        cases hb'
      · rw [if_neg hp'] at hb'
        rw [Option.mem_some_iff] at hb hb'
        have := hb.trans hb'.symm
        exact congrArg Prod.fst this
  · apply List.pairwise_map.mpr
    apply List.Pairwise.imp ?_ (List.pairwise_lt_range size)
    intro y y' hyy q hq hq'
    have h1 := flippable_row_snd size version y q hq
    have h2 := flippable_row_snd size version y' q hq'
    omega

theorem flippable_getD_inj (size version : ℕ) (i j : ℕ)
    (hi : i < (identifyFlippableModules size version).length)
    (hj : j < (identifyFlippableModules size version).length)
    (h : (identifyFlippableModules size version).getD i (0, 0)
       = (identifyFlippableModules size version).getD j (0, 0)) : i = j := by
  rw [List.getD_eq_getElem _ _ hi, List.getD_eq_getElem _ _ hj] at h
  exact (List.Nodup.getElem_inj_iff (flippable_nodup size version)).mp h

/-- Multiplication by the distribution step is injective on `[0, total)`. -/
theorem mulmod_inj (total : ℕ) (h3 : 3 ≤ total) (i j : ℕ)
    (hi : i < total) (hj : j < total)
    (h : (i * findLargePrime total) % total = (j * findLargePrime total) % total) :
    i = j := by
  have hcop : Nat.Coprime (findLargePrime total) total :=
    findLargePrime_coprime total h3
  have hme : i ≡ j [MOD total] :=
    Nat.ModEq.cancel_right_of_coprime (by rwa [Nat.coprime_comm] at hcop) h
  have hmod : i % total = j % total := hme
  rwa [Nat.mod_eq_of_lt hi, Nat.mod_eq_of_lt hj] at hmod

/-- At the default margin the computed bit capacity never exceeds the
number of flippable modules (`0.07 / 0.42 = 1/6`). -/
theorem calculateMaxCapacity_le (F : List (ℕ × ℕ)) (ec : ℕ) :
    calculateMaxCapacity F ec (7 / 100) ≤ F.length := by
  unfold calculateMaxCapacity
  have hn0 : (0 : ℚ) ≤ (F.length : ℚ) := Nat.cast_nonneg _
  have h1 : ((Int.floor ((F.length : ℚ) * (7 / 100))) : ℚ)
      ≤ (F.length : ℚ) * (7 / 100) := Int.floor_le _
  have h3 : ((Int.floor ((F.length : ℚ) * (7 / 100))) : ℚ) / (0.42 : ℚ)
      ≤ (F.length : ℚ) := by
    rw [div_le_iff (by norm_num : (0:ℚ) < 0.42)]
    nlinarith
  have h4 : Int.floor (((Int.floor ((F.length : ℚ) * (7 / 100))) : ℚ)
      / (0.42 : ℚ)) ≤ (F.length : ℤ) := by
    have h2 := Int.floor_le (((Int.floor ((F.length : ℚ) * (7 / 100))) : ℚ)
      / (0.42 : ℚ))
    have : ((Int.floor (((Int.floor ((F.length : ℚ) * (7 / 100))) : ℚ)
        / (0.42 : ℚ))) : ℚ) ≤ (F.length : ℚ) := le_trans h2 h3
    exact_mod_cast this
  rw [Int.toNat_le]
  exact max_le (by exact_mod_cast Nat.zero_le F.length) h4

/-! ### The flip map under distinct indices -/

theorem createFlipMap_partial (bits : List Bool) (idx : List ℕ)
    (hinj : ∀ i j, i < bits.length → j < bits.length →
      idx.getD i 0 = idx.getD j 0 → i = j) :
    ∀ m, m ≤ bits.length →
      (List.range m).foldl (fun acc i => mapSet acc (idx.getD i 0)
        (bits.getD i false)) []
      = (List.range m).map (fun i => (idx.getD i 0, bits.getD i false)) := by
  intro m
  induction m with
  | zero => intro _; rfl
  | succ m ih =>
    intro hm
    rw [List.range_succ, List.foldl_append, List.foldl_cons, List.foldl_nil,
      ih (by omega), List.map_append]
    unfold mapSet
    have hany : ((List.range m).map (fun i =>
        (idx.getD i 0, bits.getD i false))).any
        (fun p => p.1 == idx.getD m 0) = false := by
      rw [List.any_eq_false]
      rintro p hp
      rw [List.mem_map] at hp
      obtain ⟨i, hi, rfl⟩ := hp
      intro hbeq
      have hkey : idx.getD i 0 = idx.getD m 0 := beq_iff_eq.mp hbeq
      have := hinj i m (by have := List.mem_range.mp hi; omega) (by omega) hkey
      have hilt := List.mem_range.mp hi
      omega
    rw [if_neg (by rw [hany]; exact Bool.false_ne_true)]
    rfl

theorem createFlipMap_eq (bits : List Bool) (idx : List ℕ)
    (hinj : ∀ i j, i < bits.length → j < bits.length →
      idx.getD i 0 = idx.getD j 0 → i = j) :
    createFlipMap bits idx
      = (List.range bits.length).map (fun i =>
          (idx.getD i 0, bits.getD i false)) := by
  unfold createFlipMap
  exact createFlipMap_partial bits idx hinj bits.length (le_refl _)

/-! ### The module-toggling fold of applyFlips -/

/-- The step function of `applyFlips`' fold, named for the proofs (it
is definitionally the lambda in `applyFlips`). -/
def flipStep (size version : ℕ) (F : List (ℕ × ℕ))
    (acc : List (List Bool) × ℕ) (e : ℕ × Bool) : List (List Bool) × ℕ :=
  if e.2 = false then acc
  else
    if isFunctionPattern (F.getD e.1 (0, 0)).1 (F.getD e.1 (0, 0)).2
        size version then acc
    else
      (setValue acc.1 (F.getD e.1 (0, 0)).1 (F.getD e.1 (0, 0)).2
          (!(valueAt acc.1 (F.getD e.1 (0, 0)).1 (F.getD e.1 (0, 0)).2)),
        acc.2 + 1)

theorem applyFlips_eq_fold (base : EngineQR) (F : List (ℕ × ℕ))
    (E : List (ℕ × Bool)) :
    applyFlips base F E = ⟨base.size, base.version,
      (E.foldl (flipStep base.size base.version F) (base.values, 0)).1,
      (E.foldl (flipStep base.size base.version F) (base.values, 0)).2⟩ := rfl

/-- Full characterization of the toggling fold when the active entries
hit pairwise-distinct, in-bounds, non-function-pattern positions: row
structure is preserved, the counter counts the active entries, active
positions are toggled and all other positions are untouched. -/
theorem flipStep_fold (size version : ℕ) (F : List (ℕ × ℕ)) :
    ∀ (E : List (ℕ × Bool)) (g : List (List Bool)) (c : ℕ),
      (∀ row ∈ g, row.length = size) →
      (∀ e ∈ E, e.2 = true →
        (F.getD e.1 (0, 0)).1 < size ∧ (F.getD e.1 (0, 0)).2 < g.length ∧
          isFunctionPattern (F.getD e.1 (0, 0)).1 (F.getD e.1 (0, 0)).2
            size version = false) →
      ((E.filter (fun e => e.2)).Pairwise (fun e1 e2 =>
        F.getD e1.1 (0, 0) ≠ F.getD e2.1 (0, 0))) →
      (E.foldl (flipStep size version F) (g, c)).1.length = g.length ∧
      (∀ row ∈ (E.foldl (flipStep size version F) (g, c)).1,
        row.length = size) ∧
      (E.foldl (flipStep size version F) (g, c)).2
        = c + (E.filter (fun e => e.2)).length ∧
      (∀ x y, (∃ e ∈ E, e.2 = true ∧ F.getD e.1 (0, 0) = (x, y)) →
        valueAt (E.foldl (flipStep size version F) (g, c)).1 x y
          = !(valueAt g x y)) ∧
      (∀ x y, (¬ ∃ e ∈ E, e.2 = true ∧ F.getD e.1 (0, 0) = (x, y)) →
        valueAt (E.foldl (flipStep size version F) (g, c)).1 x y
          = valueAt g x y) := by
  intro E
  induction E with
  | nil =>
    intro g c hrows _ _
    refine ⟨rfl, hrows, by simp, ?_, fun x y _ => rfl⟩
    rintro x y ⟨e, he, _⟩
    cases he
  | cons e E ih =>
    intro g c hrows hbound hnd
    by_cases he2 : e.2 = false
    · have hstep : flipStep size version F (g, c) e = (g, c) := by
        unfold flipStep
        rw [if_pos he2]
      have hfil : (e :: E).filter (fun e => e.2) = E.filter (fun e => e.2) :=
        List.filter_cons_of_neg (by rw [he2]; exact Bool.false_ne_true)
      rw [List.foldl_cons, hstep]
      obtain ⟨h1, h2, h3, h4, h5⟩ := ih g c hrows
        (fun e' he' ht => hbound e' (List.mem_cons_of_mem _ he') ht)
        (by rwa [hfil] at hnd)
      refine ⟨h1, h2, by rw [hfil]; exact h3, ?_, ?_⟩
      · rintro x y ⟨e', he', ht', hco'⟩
        rcases List.mem_cons.mp he' with rfl | hmem
        · rw [he2] at ht'
          cases ht'
        · exact h4 x y ⟨e', hmem, ht', hco'⟩
      · intro x y hnc
        exact h5 x y (fun ⟨e', hm, ht, hc⟩ =>
          hnc ⟨e', List.mem_cons_of_mem _ hm, ht, hc⟩)
    · have htrue : e.2 = true := by
        revert he2
        cases e.2 <;> simp
      obtain ⟨hx, hy, hnf⟩ := hbound e (List.mem_cons_self _ _) htrue
      have hstep : flipStep size version F (g, c) e =
          (setValue g (F.getD e.1 (0, 0)).1 (F.getD e.1 (0, 0)).2
            (!(valueAt g (F.getD e.1 (0, 0)).1 (F.getD e.1 (0, 0)).2)),
           c + 1) := by
        unfold flipStep
        rw [if_neg (by rw [htrue]; decide),
          if_neg (by rw [hnf]; exact Bool.false_ne_true)]
      have hfil : (e :: E).filter (fun e => e.2)
          = e :: E.filter (fun e => e.2) :=
        List.filter_cons_of_pos htrue
      rw [hfil] at hnd
      rw [List.pairwise_cons] at hnd
      obtain ⟨hehead, hndtail⟩ := hnd
      have hrowlen : (g.getD (F.getD e.1 (0, 0)).2 []).length = size := by
        rw [List.getD_eq_getElem g [] hy]
        exact hrows _ (List.getElem_mem hy)
      have hrows1 : ∀ row ∈ setValue g (F.getD e.1 (0, 0)).1
          (F.getD e.1 (0, 0)).2
          (!(valueAt g (F.getD e.1 (0, 0)).1 (F.getD e.1 (0, 0)).2)),
          row.length = size := setValue_rows _ _ _ _ _ hrows
      have hlen1 : (setValue g (F.getD e.1 (0, 0)).1 (F.getD e.1 (0, 0)).2
          (!(valueAt g (F.getD e.1 (0, 0)).1 (F.getD e.1 (0, 0)).2))).length
          = g.length := setValue_length _ _ _ _
      rw [List.foldl_cons, hstep]
      obtain ⟨h1, h2, h3, h4, h5⟩ := ih _ (c + 1) hrows1
        (fun e' he' ht => by
          obtain ⟨ha, hb, hc⟩ := hbound e' (List.mem_cons_of_mem _ he') ht
          exact ⟨ha, by rwa [hlen1], hc⟩)
        hndtail
      refine ⟨by rw [h1, hlen1], h2, ?_, ?_, ?_⟩
      · rw [h3, hfil, List.length_cons]
        omega
      · rintro x y ⟨e', he', ht', hco'⟩
        rcases List.mem_cons.mp he' with rfl | hmem
        · have hxeq : (F.getD e'.1 (0, 0)).1 = x := by rw [hco']
          have hyeq : (F.getD e'.1 (0, 0)).2 = y := by rw [hco']
          have hnot : ¬ ∃ e'' ∈ E, e''.2 = true ∧
              F.getD e''.1 (0, 0) = (x, y) := by
            rintro ⟨e'', he'', ht'', hco''⟩
            exact hehead e'' (List.mem_filter.mpr ⟨he'', ht''⟩)
              (hco'.trans hco''.symm)
          rw [h5 x y hnot, ← hxeq, ← hyeq]
          exact valueAt_setValue_self g _ _ _ hy (by rw [hrowlen]; exact hx)
        · have hcomp : ¬ (x = (F.getD e.1 (0, 0)).1 ∧
              y = (F.getD e.1 (0, 0)).2) := by
            rintro ⟨ha, hb⟩
            exact hehead e' (List.mem_filter.mpr ⟨hmem, ht'⟩)
              (by rw [hco', ha, hb])
          rw [h4 x y ⟨e', hmem, ht', hco'⟩,
            valueAt_setValue_ne g _ _ _ x y hcomp]
      · intro x y hnc
        have hnc1 : ¬ (x = (F.getD e.1 (0, 0)).1 ∧
            y = (F.getD e.1 (0, 0)).2) := by
          rintro ⟨ha, hb⟩
          exact hnc ⟨e, List.mem_cons_self _ _, htrue, by rw [ha, hb]⟩
        have hncE : ¬ ∃ e' ∈ E, e'.2 = true ∧ F.getD e'.1 (0, 0) = (x, y) :=
          fun ⟨e', hm, ht, hc⟩ =>
            hnc ⟨e', List.mem_cons_of_mem _ hm, ht, hc⟩
        rw [h5 x y hncE, valueAt_setValue_ne g _ _ _ x y hnc1]

/-! ### Reading the extraction walk -/

/-- Bit `j` of an extraction walk starting at `c` tests membership of
`(c + j·step) % total` in the flip set. -/
theorem stepRead_getD_eq (fp : List ℕ) (t s : ℕ) :
    ∀ n c j, j < n →
      (stepRead fp t s c n).getD j false = decide ((c + j * s) % t ∈ fp) := by
  intro n
  induction n with
  | zero => intro c j hj; omega
  | succ n ih =>
    intro c j hj
    cases j with
    | zero =>
      rw [stepRead, List.getD_cons_zero, Nat.zero_mul, Nat.add_zero]
    | succ j =>
      rw [stepRead, List.getD_cons_succ, ih ((c + s) % t) j (by omega)]
      have helem : ((c + s) % t + j * s) % t = (c + (j + 1) * s) % t := by
        rw [Nat.mod_add_mod]
        have harith : c + s + j * s = c + (j + 1) * s := by ring
        rw [harith]
      rw [helem]

/-- A frame for a nonempty byte list has at least one set bit (its
nonzero 16-bit length field). -/
theorem frame_has_true_bit (B : List ℕ) (hB0 : B.length ≠ 0)
    (hL16 : B.length < 65536) :
    ∃ j, j < (frameBits B).length ∧ (frameBits B).getD j false = true := by
  by_contra hc
  push_neg at hc
  have hz : frameLen (frameBits B) = 0 := by
    unfold frameLen
    rw [readBE_eq_readSum]
    apply readSum_of_bits _ 16 0 0 (by norm_num)
    intro k hk
    rw [Nat.zero_testBit, Nat.zero_add]
    unfold bitAt
    apply Bool.eq_false_iff.mpr
    apply hc k
    rw [frameBits_length]
    omega
  rw [frameLen_frameBits B (by norm_num; omega)] at hz
  exact hB0 hz

/-- The value `encode` returns for a nonempty secondary message once
all guards pass. -/
theorem encode_nonempty (base : EngineQR) (B : List ℕ)
    (hF : (identifyFlippableModules base.size base.version).length ≠ 0)
    (hM : ¬ calculateMaxCapacity (identifyFlippableModules base.size base.version)
      3 (7 / 100) ≤ 0)
    (hBl : B.length > 0)
    (hfit : ¬ (32 + B.length * 8 > calculateMaxCapacity
      (identifyFlippableModules base.size base.version) 3 (7 / 100)))
    (hgen : ¬ ((frameBits B).length >
      (identifyFlippableModules base.size base.version).length)) :
    encode base B (7 / 100) = .ok (applyFlips base
      (identifyFlippableModules base.size base.version)
      (createFlipMap (frameBits B)
        (distLoop (identifyFlippableModules base.size base.version).length
          (findLargePrime
            (identifyFlippableModules base.size base.version).length)
          0 (frameBits B).length))) := by
  unfold encode
  rw [if_neg hF, if_neg hM, if_pos hBl]
  unfold encodeSecondaryMessage
  rw [if_neg hfit, except_bind_ok]
  unfold generateDistributionPattern
  rw [if_neg hgen, except_map_ok]

/-- If the flip set is exactly the set of walk positions of the true
bits of a frame, the extraction pass reproduces the frame. -/
theorem extract_spec (fp : List ℕ) (B : List ℕ) (F : List (ℕ × ℕ))
    (hL16 : B.length < 65536)
    (hn : (frameBits B).length ≤ F.length) (h3 : 3 ≤ F.length)
    (hmem : ∀ i, i ∈ fp ↔ (i < F.length ∧ ∃ j, j < (frameBits B).length ∧
      (frameBits B).getD j false = true ∧
      i = (j * findLargePrime F.length) % F.length)) :
    extractBitsFromFlips fp F = frameBits B := by
  have hbit : ∀ j, j < (frameBits B).length →
      decide ((j * findLargePrime F.length) % F.length ∈ fp)
        = (frameBits B).getD j false := by
    intro j hj
    by_cases hbj : (frameBits B).getD j false = true
    · rw [hbj]
      apply decide_eq_true
      exact (hmem _).mpr ⟨Nat.mod_lt _ (by omega), j, hj, hbj, rfl⟩
    · have hbf : (frameBits B).getD j false = false := Bool.eq_false_iff.mpr hbj
      rw [hbf]
      apply decide_eq_false
      intro hin
      obtain ⟨_, j', hj', hbj', heq⟩ := (hmem _).mp hin
      have hjj : j' = j :=
        mulmod_inj F.length h3 j' j (by omega) (by omega) heq.symm
      rw [hjj] at hbj'
      rw [hbj'] at hbf
      cases hbf
  have hL : readBE (stepRead fp F.length (findLargePrime F.length) 0 16) 0 16
      = B.length := by
    rw [readBE_eq_readSum]
    have h16 : ∀ k, k < 16 →
        bitAt (stepRead fp F.length (findLargePrime F.length) 0 16) (0 + k)
          = bitAt (frameBits B) (0 + k) := by
      intro k hk
      unfold bitAt
      rw [Nat.zero_add,
        stepRead_getD_eq fp F.length (findLargePrime F.length) 16 0 k hk,
        Nat.zero_add]
      exact hbit k (by rw [frameBits_length]; omega)
    rw [readSum_congr _ (frameBits B) 16 0 h16, ← readBE_eq_readSum]
    exact frameLen_frameBits B (by norm_num; omega)
  unfold extractBitsFromFlips
  rw [hL]
  apply List.ext_getElem
  · rw [stepRead_length, frameBits_length]
    omega
  · intro i h1 h2
    rw [← List.getD_eq_getElem _ false h1, ← List.getD_eq_getElem _ false h2]
    rw [stepRead_getD_eq fp F.length (findLargePrime F.length) _ 0 i
      (by rwa [stepRead_length] at h1), Nat.zero_add]
    exact hbit i h2

/-- Decoding any scan that differs from the reference exactly at the
walk positions of the frame's true bits recovers the byte list. -/
theorem decodeFromMatrix_spec (base : EngineQR) (X : List (List Bool))
    (B : List ℕ) (F : List (ℕ × ℕ))
    (hF : identifyFlippableModules base.size base.version = F)
    (hlen : X.length = base.values.length)
    (hb : ∀ x ∈ B, x < 256) (hB0 : B.length ≠ 0) (hL16 : B.length < 65536)
    (hn : (frameBits B).length ≤ F.length) (h3 : 3 ≤ F.length)
    (hdiff : ∀ i, i < F.length →
      ((valueAt X (F.getD i (0, 0)).1 (F.getD i (0, 0)).2
          ≠ valueAt base.values (F.getD i (0, 0)).1 (F.getD i (0, 0)).2)
        ↔ ∃ j, j < (frameBits B).length ∧
            (frameBits B).getD j false = true ∧
            i = (j * findLargePrime F.length) % F.length)) :
    ∃ k, k ≠ 0 ∧ decodeFromMatrix base X = .ok ⟨B, k⟩ := by
  have hcm : compareMatrices X base.values F
      = .ok ((List.range F.length).filter (fun i =>
          valueAt X (F.getD i (0, 0)).1 (F.getD i (0, 0)).2
            ≠ valueAt base.values (F.getD i (0, 0)).1 (F.getD i (0, 0)).2)) := by
    unfold compareMatrices
    rw [if_neg (fun hc => hc hlen)]
  have hmem : ∀ i, i ∈ (List.range F.length).filter (fun i =>
      valueAt X (F.getD i (0, 0)).1 (F.getD i (0, 0)).2
        ≠ valueAt base.values (F.getD i (0, 0)).1 (F.getD i (0, 0)).2) ↔
      (i < F.length ∧ ∃ j, j < (frameBits B).length ∧
        (frameBits B).getD j false = true ∧
        i = (j * findLargePrime F.length) % F.length) := by
    intro i
    rw [List.mem_filter, List.mem_range]
    constructor
    · rintro ⟨hiT, hpred⟩
      exact ⟨hiT, (hdiff i hiT).mp (of_decide_eq_true hpred)⟩
    · rintro ⟨hiT, hj⟩
      exact ⟨hiT, decide_eq_true ((hdiff i hiT).mpr hj)⟩
  have hne : (List.range F.length).filter (fun i =>
      valueAt X (F.getD i (0, 0)).1 (F.getD i (0, 0)).2
        ≠ valueAt base.values (F.getD i (0, 0)).1 (F.getD i (0, 0)).2) ≠ [] := by
    obtain ⟨j, hj, hbj⟩ := frame_has_true_bit B hB0 hL16
    intro hnil
    have hin := (hmem ((j * findLargePrime F.length) % F.length)).mpr
      ⟨Nat.mod_lt _ (by omega), j, hj, hbj, rfl⟩
    rw [hnil] at hin
    exact List.not_mem_nil _ hin
  refine ⟨((List.range F.length).filter (fun i =>
      valueAt X (F.getD i (0, 0)).1 (F.getD i (0, 0)).2
        ≠ valueAt base.values (F.getD i (0, 0)).1
          (F.getD i (0, 0)).2)).length,
    fun hc => hne (List.length_eq_zero.mp hc), ?_⟩
  unfold decodeFromMatrix
  rw [hF, hcm, except_bind_ok,
    if_neg (fun hc => hne (List.length_eq_zero.mp hc)),
    extract_spec _ B F hL16 hn h3 hmem, decode_frameBits B hb hL16,
    except_map_ok]

/-- The matrix produced by `applyFlips` on the canonical flip map has
the base's dimensions and differs from the base exactly at the walk
positions of the frame's true bits. -/
theorem applyFlips_diff (base : EngineQR) (B : List ℕ) (F : List (ℕ × ℕ))
    (hglen : base.values.length = base.size)
    (hrows : ∀ row ∈ base.values, row.length = base.size)
    (hmemF : ∀ q ∈ F, q.1 < base.size ∧ q.2 < base.size ∧
      isFunctionPattern q.1 q.2 base.size base.version = false)
    (hnodupF : F.Nodup)
    (hn : (frameBits B).length ≤ F.length) (h3 : 3 ≤ F.length) :
    (applyFlips base F (createFlipMap (frameBits B)
      (distLoop F.length (findLargePrime F.length) 0
        (frameBits B).length))).values.length = base.values.length ∧
    (∀ i, i < F.length →
      ((valueAt (applyFlips base F (createFlipMap (frameBits B)
          (distLoop F.length (findLargePrime F.length) 0
            (frameBits B).length))).values
          (F.getD i (0, 0)).1 (F.getD i (0, 0)).2
        ≠ valueAt base.values (F.getD i (0, 0)).1 (F.getD i (0, 0)).2)
       ↔ ∃ j, j < (frameBits B).length ∧
          (frameBits B).getD j false = true ∧
          i = (j * findLargePrime F.length) % F.length)) := by
  have hkj : ∀ j, j < (frameBits B).length →
      (distLoop F.length (findLargePrime F.length) 0
        (frameBits B).length).getD j 0
      = (j * findLargePrime F.length) % F.length :=
    fun j hj => distLoop_entry (frameBits B).length F.length j hj
  generalize hidx : distLoop F.length (findLargePrime F.length) 0
    (frameBits B).length = idx
  rw [hidx] at hkj
  have hFinj : ∀ i j, i < F.length → j < F.length →
      F.getD i (0, 0) = F.getD j (0, 0) → i = j := by
    intro i j hi hj h
    rw [List.getD_eq_getElem _ _ hi, List.getD_eq_getElem _ _ hj] at h
    exact (List.Nodup.getElem_inj_iff hnodupF).mp h
  have hinj : ∀ i j, i < (frameBits B).length → j < (frameBits B).length →
      idx.getD i 0 = idx.getD j 0 → i = j := by
    intro i j hi hj heq
    rw [hkj i hi, hkj j hj] at heq
    exact mulmod_inj F.length h3 i j (by omega) (by omega) heq
  have hEeq := createFlipMap_eq (frameBits B) idx hinj
  have hklt : ∀ j, j < (frameBits B).length → idx.getD j 0 < F.length := by
    intro j hj
    rw [hkj j hj]
    exact Nat.mod_lt _ (by omega)
  have hbound : ∀ e ∈ createFlipMap (frameBits B) idx, e.2 = true →
      (F.getD e.1 (0, 0)).1 < base.size ∧
      (F.getD e.1 (0, 0)).2 < base.values.length ∧
      isFunctionPattern (F.getD e.1 (0, 0)).1 (F.getD e.1 (0, 0)).2
        base.size base.version = false := by
    intro e he _
    rw [hEeq, List.mem_map] at he
    obtain ⟨j, hjr, rfl⟩ := he
    have hj := List.mem_range.mp hjr
    have hq : F.getD (idx.getD j 0) (0, 0) ∈ F := by
      rw [List.getD_eq_getElem _ _ (hklt j hj)]
      exact List.getElem_mem _
    obtain ⟨ha, hbb, hcc⟩ := hmemF _ hq
    exact ⟨ha, by rw [hglen]; exact hbb, hcc⟩
  have hpair : ((createFlipMap (frameBits B) idx).filter
      (fun e => e.2)).Pairwise (fun e1 e2 =>
        F.getD e1.1 (0, 0) ≠ F.getD e2.1 (0, 0)) := by
    apply List.Pairwise.filter
    rw [hEeq]
    apply List.pairwise_map.mpr
    apply List.Pairwise.imp_of_mem ?_ (List.pairwise_lt_range _)
    intro a b ha hb hab hceq
    have han := List.mem_range.mp ha
    have hbn := List.mem_range.mp hb
    have := hFinj _ _ (hklt a han) (hklt b hbn) hceq
    have := hinj a b han hbn this
    omega
  obtain ⟨hf1, hf2, hf3, hf4, hf5⟩ := flipStep_fold base.size base.version F
    (createFlipMap (frameBits B) idx) base.values 0 hrows hbound hpair
  rw [show (applyFlips base F (createFlipMap (frameBits B) idx)).values
    = (List.foldl (flipStep base.size base.version F) (base.values, 0)
        (createFlipMap (frameBits B) idx)).1 from rfl]
  constructor
  · exact hf1
  · intro i hi
    constructor
    · intro hne
      by_contra hnP
      apply hne
      apply hf5
      rintro ⟨e, he, ht, hco⟩
      rw [hEeq, List.mem_map] at he
      obtain ⟨j, hjr, rfl⟩ := he
      have hj := List.mem_range.mp hjr
      have hik : idx.getD j 0 = i :=
        hFinj _ i (hklt j hj) hi hco
      apply hnP
      refine ⟨j, hj, ht, ?_⟩
      rw [← hik, hkj j hj]
    · rintro ⟨j, hj, hbj, hieq⟩
      rw [hf4 (F.getD i (0, 0)).1 (F.getD i (0, 0)).2 ?_]
      · exact Bool.not_ne_self _
      · refine ⟨(idx.getD j 0, (frameBits B).getD j false), ?_, hbj, ?_⟩
        · rw [hEeq]
          exact List.mem_map_of_mem _ (List.mem_range.mpr hj)
        · have hji : idx.getD j 0 = i := by
            rw [hkj j hj, ← hieq]
          rw [hji]

/-- C1: at the default safety margin, for every well-formed base matrix
and every secondary byte list within the advertised capacity, encoding
succeeds and decoding the stego matrix against the same base returns
exactly the secondary bytes. -/
theorem claim_C1 (base : EngineQR) (B : List ℕ) (hwf : WellFormed base)
    (hb : ∀ x ∈ B, x < 256)
    (hcap : B.length ≤ getCapacity base (7 / 100)) :
    ∃ m p, encode base B (7 / 100) = .ok m ∧
      decodeFromMatrix base m.values = .ok p ∧
      p.secondaryMessage = B := by
  obtain ⟨hs, hv1, hv40, hglen, hrows⟩ := hwf
  have hsz : 21 ≤ base.size := by omega
  have hsz177 : base.size ≤ 177 := by omega
  have hFge := identifyFlippableModules_length_ge base.size base.version hsz
  have hFle := identifyFlippableModules_length_le base.size base.version
  have hF0 : (identifyFlippableModules base.size base.version).length ≠ 0 := by
    omega
  have h3 : 3 ≤ (identifyFlippableModules base.size base.version).length := by
    omega
  have hM1 : 1 ≤ calculateMaxCapacity
      (identifyFlippableModules base.size base.version) 3 (7 / 100) :=
    calculateMaxCapacity_pos _ 3 (by omega)
  have hMle : calculateMaxCapacity
      (identifyFlippableModules base.size base.version) 3 (7 / 100)
      ≤ (identifyFlippableModules base.size base.version).length :=
    calculateMaxCapacity_le _ 3
  have hcap' : B.length ≤ (calculateMaxCapacity
      (identifyFlippableModules base.size base.version) 3 (7 / 100) - 32) / 8 := by
    unfold getCapacity at hcap
    exact hcap
  by_cases hB0 : B.length = 0
  · have hBnil : B = [] := List.length_eq_zero.mp hB0
    subst hBnil
    exact ⟨⟨base.size, base.version, base.values, 0⟩, ⟨[], 0⟩,
      encode_empty base (7 / 100) hF0 (by omega), decode_same base, rfl⟩
  · have hsq : base.size * base.size ≤ 31329 := Nat.mul_le_mul hsz177 hsz177
    have hL16 : B.length < 65536 := by omega
    have hfit : ¬ (32 + B.length * 8 > calculateMaxCapacity
        (identifyFlippableModules base.size base.version) 3 (7 / 100)) := by
      omega
    have hn : (frameBits B).length ≤
        (identifyFlippableModules base.size base.version).length := by
      rw [frameBits_length]
      omega
    have henc := encode_nonempty base B hF0 (by omega) (by omega) hfit
      (by rw [frameBits_length]; omega)
    obtain ⟨hdl, hdv⟩ := applyFlips_diff base B
      (identifyFlippableModules base.size base.version) hglen hrows
      (fun q hq => (flippable_mem base.size base.version q).mp hq)
      (flippable_nodup base.size base.version) hn h3
    obtain ⟨k, hk0, hdec⟩ := decodeFromMatrix_spec base
      (applyFlips base (identifyFlippableModules base.size base.version)
        (createFlipMap (frameBits B)
          (distLoop (identifyFlippableModules base.size base.version).length
            (findLargePrime
              (identifyFlippableModules base.size base.version).length)
            0 (frameBits B).length))).values
      B (identifyFlippableModules base.size base.version) rfl hdl hb hB0 hL16
      hn h3 hdv
    exact ⟨applyFlips base (identifyFlippableModules base.size base.version)
      (createFlipMap (frameBits B)
        (distLoop (identifyFlippableModules base.size base.version).length
          (findLargePrime
            (identifyFlippableModules base.size base.version).length)
          0 (frameBits B).length)), ⟨B, k⟩, henc, hdec, rfl⟩

theorem claim_C1_witness :
    WellFormed baseQR2 ∧ (∀ x ∈ [104, 105], x < 256) ∧
      [104, 105].length ≤ getCapacity baseQR2 (7 / 100) ∧
      (∃ m p, encode baseQR2 [104, 105] (7 / 100) = .ok m ∧
        decodeFromMatrix baseQR2 m.values = .ok p ∧
        p.secondaryMessage = [104, 105]) := by
  have hlen : (identifyFlippableModules baseQR2.size baseQR2.version).length
      = 351 := by decide
  have hM : calculateMaxCapacity
      (identifyFlippableModules baseQR2.size baseQR2.version) 3 (7 / 100)
      = 57 := by
    unfold calculateMaxCapacity
    rw [hlen]
    norm_num
    rfl
  have hcap : [104, 105].length ≤ getCapacity baseQR2 (7 / 100) := by
    unfold getCapacity
    rw [hM]
    decide
  exact ⟨by decide, by decide, hcap,
    claim_C1 baseQR2 [104, 105] (by decide) (by decide) hcap⟩

end QRStego
